import Mathlib

/-!
Verification development for the `evolution-generator` locale-file scripts
(`generate_libelles.py`, `generate_sections.py`).

Strings are modeled as `List Char` (`Str`).  Python's `str.count`,
`str.replace(old, new[, 1])`, `in`, and `split('_', 1)` are embedded as
executable recursive functions (`pyCount`, `pyReplaceAll`, `pyReplaceFirst`,
`pyIn`, `pySplit1`).  Python dictionaries are embedded as association lists
with first-occurrence lookup and update-in-place insertion (`dictGet?`,
`dictSet`), which preserves insertion order exactly as CPython dicts do.
-/

set_option maxHeartbeats 1000000

abbrev Str := List Char

/-- Boolean test that `a` is a leading segment of `b`
(embeds Python `str.startswith`, used to scan for substring matches). -/
def isPre : Str → Str → Bool
  | [], _ => true
  | _ :: _, [] => false
  | a :: as, b :: bs => a = b && isPre as bs

theorem isPre_iff {a b : Str} : isPre a b = true ↔ ∃ t, a ++ t = b := by
  induction a generalizing b with
  | nil => simp [isPre]
  | cons x xs ih =>
    cases b with
    | nil => simp [isPre]
    | cons y ys =>
      simp only [isPre, Bool.and_eq_true, decide_eq_true_eq, ih]
      constructor
      · rintro ⟨rfl, t, rfl⟩
        exact ⟨t, rfl⟩
      · rintro ⟨t, h⟩
        simp only [List.cons_append, List.cons.injEq] at h
        exact ⟨h.1, t, h.2⟩

theorem isPre_append (a t : Str) : isPre a (a ++ t) = true :=
  isPre_iff.mpr ⟨t, rfl⟩

theorem isPre_length_le {a b : Str} (h : isPre a b = true) : a.length ≤ b.length := by
  rcases isPre_iff.mp h with ⟨t, rfl⟩
  simp

/-- If `a` starts `b ++ c` and fits inside `b`, then `a` starts `b`. -/
theorem isPre_of_isPre_append_left {a b c : Str} (h : isPre a (b ++ c) = true)
    (hlen : a.length ≤ b.length) : isPre a b = true := by
  rcases isPre_iff.mp h with ⟨t, ht⟩
  have ha : a = b.take a.length := by
    have h1 : (a ++ t).take a.length = a := List.take_left a t
    rw [ht, List.take_append_eq_append_take, Nat.sub_eq_zero_of_le hlen] at h1
    simpa using h1.symm
  have h2 := List.take_append_drop a.length b
  rw [← ha] at h2
  exact isPre_iff.mpr ⟨b.drop a.length, h2⟩

/-- If `a` starts `b ++ c` and is at least as long as `b`, then `b` starts `a`. -/
theorem isPre_rev_of_isPre_append {a b c : Str} (h : isPre a (b ++ c) = true)
    (hlen : b.length ≤ a.length) : isPre b a = true := by
  rcases isPre_iff.mp h with ⟨t, ht⟩
  have hb : b = a.take b.length := by
    have h1 : (b ++ c).take b.length = b := List.take_left b c
    rw [← ht, List.take_append_eq_append_take, Nat.sub_eq_zero_of_le hlen] at h1
    simpa using h1.symm
  have h2 := List.take_append_drop b.length a
  rw [← hb] at h2
  exact isPre_iff.mpr ⟨a.drop b.length, h2⟩

/-! ## Association lists (CPython dict semantics) -/

/-- First-occurrence lookup in an association list (Python `d[k]` / `d.get(k)`). -/
def dictGet? {α β : Type} [DecidableEq α] : List (α × β) → α → Option β
  | [], _ => none
  | kv :: d, k => if kv.1 = k then some kv.2 else dictGet? d k

/-- Membership test (Python `k in d`). -/
def containsKey {α β : Type} [DecidableEq α] : List (α × β) → α → Bool
  | [], _ => false
  | kv :: d, k => kv.1 = k || containsKey d k

/-- Insertion-order-preserving update (Python `d[k] = v`): an existing key keeps
its position, a new key is appended at the end. -/
def dictSet {α β : Type} [DecidableEq α] : List (α × β) → α → β → List (α × β)
  | [], k, v => [(k, v)]
  | kv :: d, k, v => if kv.1 = k then (k, v) :: d else kv :: dictSet d k v

def keysOf {α β : Type} (d : List (α × β)) : List α := d.map Prod.fst

@[simp] theorem keysOf_nil {α β : Type} : keysOf ([] : List (α × β)) = [] := rfl

@[simp] theorem keysOf_cons {α β : Type} (kv : α × β) (d : List (α × β)) :
    keysOf (kv :: d) = kv.1 :: keysOf d := rfl

theorem dictGet?_dictSet_self {α β : Type} [DecidableEq α] (d : List (α × β)) (k : α) (v : β) :
    dictGet? (dictSet d k v) k = some v := by
  induction d with
  | nil => simp [dictSet, dictGet?]
  | cons kv d ih =>
    by_cases h : kv.1 = k
    · simp [dictSet, dictGet?, h]
    · simp [dictSet, dictGet?, h, ih]

theorem dictGet?_dictSet_ne {α β : Type} [DecidableEq α] (d : List (α × β)) (k k' : α) (v : β)
    (h : k ≠ k') : dictGet? (dictSet d k v) k' = dictGet? d k' := by
  induction d with
  | nil => simp [dictSet, dictGet?, h]
  | cons kv d ih =>
    by_cases hk : kv.1 = k
    · simp [dictSet, dictGet?, hk, h, Ne.symm h]
    · simp only [dictSet, if_neg hk, dictGet?]
      by_cases hk' : kv.1 = k'
      · simp [hk']
      · simp [hk', ih]

theorem dictSet_eq_self {α β : Type} [DecidableEq α] {d : List (α × β)} {k : α} {v : β}
    (h : dictGet? d k = some v) : dictSet d k v = d := by
  induction d with
  | nil => simp [dictGet?] at h
  | cons kv d ih =>
    obtain ⟨k0, v0⟩ := kv
    by_cases hk : k0 = k
    · subst hk
      simp [dictGet?] at h
      subst h
      simp [dictSet]
    · simp only [dictGet?, if_neg hk] at h
      simp [dictSet, hk, ih h]

theorem containsKey_iff_dictGet? {α β : Type} [DecidableEq α] (d : List (α × β)) (k : α) :
    containsKey d k = true ↔ ∃ v, dictGet? d k = some v := by
  induction d with
  | nil => simp [containsKey, dictGet?]
  | cons kv d ih =>
    by_cases hk : kv.1 = k
    · simp [containsKey, dictGet?, hk]
    · simp [containsKey, dictGet?, hk, ih]

theorem containsKey_dictSet_self {α β : Type} [DecidableEq α] (d : List (α × β)) (k : α) (v : β) :
    containsKey (dictSet d k v) k = true :=
  (containsKey_iff_dictGet? _ _).mpr ⟨v, dictGet?_dictSet_self d k v⟩

theorem containsKey_dictSet_of {α β : Type} [DecidableEq α] (d : List (α × β)) (k k' : α) (v : β)
    (h : containsKey d k' = true) : containsKey (dictSet d k v) k' = true := by
  by_cases hk : k = k'
  · subst hk
    exact containsKey_dictSet_self d k v
  · rcases (containsKey_iff_dictGet? d k').mp h with ⟨w, hw⟩
    exact (containsKey_iff_dictGet? _ _).mpr ⟨w, by rw [dictGet?_dictSet_ne d k k' v hk]; exact hw⟩

theorem keysOf_dictSet_of_contains {α β : Type} [DecidableEq α] (d : List (α × β)) (k : α) (v : β)
    (h : containsKey d k = true) : keysOf (dictSet d k v) = keysOf d := by
  induction d with
  | nil => simp [containsKey] at h
  | cons kv d ih =>
    by_cases hk : kv.1 = k
    · simp [dictSet, hk]
    · have h' : containsKey d k = true := by
        cases hc : containsKey d k
        · simp [containsKey, hc, hk] at h
        · rfl
      simp [dictSet, hk, ih h']

theorem keysOf_dictSet_of_not_contains {α β : Type} [DecidableEq α] (d : List (α × β)) (k : α)
    (v : β) (h : containsKey d k = false) : keysOf (dictSet d k v) = keysOf d ++ [k] := by
  induction d with
  | nil => simp [dictSet]
  | cons kv d ih =>
    have h1 : kv.1 ≠ k := by
      intro he
      simp [containsKey, he] at h
    have h2 : containsKey d k = false := by
      cases hc : containsKey d k
      · rfl
      · simp [containsKey, hc] at h
    simp [dictSet, h1, ih h2]

theorem containsKey_map_snd {α β γ : Type} [DecidableEq α] (d : List (α × β)) (f : α × β → γ)
    (k : α) : containsKey (d.map (fun kv => (kv.1, f kv))) k = containsKey d k := by
  induction d with
  | nil => simp [containsKey]
  | cons kv d ih => simp [containsKey, ih]

/-! ## Python string primitives

These embed CPython's substring operations: `pat in s`, `s.count(pat)`,
`s.replace(pat, rep, 1)` and `s.replace(pat, rep)`.  All of them scan left to
right and treat matches as non-overlapping (after a match the scan resumes
after the matched segment).  The empty-pattern corner cases follow CPython
(`"ab".count("") == 3`, `"ab".replace("", "X") == "XaXbX"`). -/

/-- Embeds Python `pat in s`. -/
def pyIn (pat : Str) : Str → Bool
  | [] => pat.isEmpty
  | c :: cs => isPre pat (c :: cs) || pyIn pat cs

/-- Scanner for `str.count` with a nonempty pattern. -/
def pyCountAux (pat : Str) : Str → Nat
  | [] => 0
  | c :: cs =>
    if isPre pat (c :: cs) then 1 + pyCountAux pat (cs.drop (pat.length - 1))
    else pyCountAux pat cs
termination_by s => s.length
decreasing_by
  · simp only [List.length_drop, List.length_cons]
    omega
  · simp only [List.length_cons]
    omega

/-- Embeds Python `s.count(pat)` (non-overlapping, left to right). -/
def pyCount (pat s : Str) : Nat :=
  if pat.isEmpty then s.length + 1 else pyCountAux pat s

/-- Scanner for `str.replace(pat, rep, 1)` with a nonempty pattern. -/
def pyReplFirstAux (pat rep : Str) : Str → Str
  | [] => []
  | c :: cs =>
    if isPre pat (c :: cs) then rep ++ cs.drop (pat.length - 1)
    else c :: pyReplFirstAux pat rep cs

/-- Embeds Python `s.replace(pat, rep, 1)` (leftmost occurrence only). -/
def pyReplaceFirst (pat rep s : Str) : Str :=
  if pat.isEmpty then rep ++ s else pyReplFirstAux pat rep s

/-- Scanner for `str.replace(pat, rep)` with a nonempty pattern. -/
def pyReplAllAux (pat rep : Str) : Str → Str
  | [] => []
  | c :: cs =>
    if isPre pat (c :: cs) then rep ++ pyReplAllAux pat rep (cs.drop (pat.length - 1))
    else c :: pyReplAllAux pat rep cs
termination_by s => s.length
decreasing_by
  · simp only [List.length_drop, List.length_cons]
    omega
  · simp only [List.length_cons]
    omega

/-- Scanner for `str.replace("", rep)` (CPython inserts `rep` at every gap). -/
def pyReplEmptyAux (rep : Str) : Str → Str
  | [] => rep
  | c :: cs => rep ++ c :: pyReplEmptyAux rep cs

/-- Embeds Python `s.replace(pat, rep)` (all non-overlapping occurrences). -/
def pyReplaceAll (pat rep s : Str) : Str :=
  if pat.isEmpty then pyReplEmptyAux rep s else pyReplAllAux pat rep s

/-- Embeds Python `s.split(sep, 1)` for a single-character separator, as used by
`generate_libelles.py` line 250 (`key.split('_', 1)`): the part before the
first separator, and the remainder after it when the separator occurs. -/
def pySplit1 (sep : Char) (s : Str) : Str × Option Str :=
  let pre := s.takeWhile (fun c => decide (c ≠ sep))
  if pre.length = s.length then (pre, none) else (pre, some (s.drop (pre.length + 1)))

/-! ## Greedy split and alternating rejoin (spec-side vocabulary for claim C2)

The spec describes `replaceStartEnd` as: split the string at the
non-overlapping occurrences of the token (left to right) and rejoin the parts
with alternating opening/closing tags.  `splitTok` and `joinAlt` are that
description; the theorems below prove the source's while-loop equal to it. -/

/-- Greedy left-to-right split of `s` at non-overlapping occurrences of `pat`
(the parts between matches, in order). -/
def splitTok (pat : Str) : Str → List Str
  | [] => [[]]
  | c :: cs =>
    if isPre pat (c :: cs) && !pat.isEmpty then
      [] :: splitTok pat (cs.drop (pat.length - 1))
    else
      match splitTok pat cs with
      | [] => [[c]]
      | p :: ps => (c :: p) :: ps
termination_by s => s.length
decreasing_by
  · simp only [List.length_drop, List.length_cons]
    omega
  · simp only [List.length_cons]
    omega

/-- Rejoin split parts, inserting the opening tag before parts in even
position-count and the closing tag before parts in odd position-count. -/
def joinAlt (startReplaced endReplaced : Str) : Nat → List Str → Str
  | _, [] => []
  | _, [p] => p
  | k, p :: ps =>
    p ++ (if k % 2 = 0 then startReplaced else endReplaced) ++
      joinAlt startReplaced endReplaced (k + 1) ps

theorem splitTok_ne_nil (pat s : Str) : splitTok pat s ≠ [] := by
  cases s with
  | nil => simp [splitTok]
  | cons c cs =>
    rw [splitTok]
    split
    · simp
    · split <;> simp

theorem joinAlt_cons_append (startReplaced endReplaced c q : Str) (k : Nat) (qs : List Str) :
    joinAlt startReplaced endReplaced k ((c ++ q) :: qs) =
      c ++ joinAlt startReplaced endReplaced k (q :: qs) := by
  cases qs with
  | nil => rfl
  | cons r rs => simp [joinAlt]

/-- When the token does not occur, the scanners are all trivial. -/
theorem scan_of_not_pyIn (pat : Str) :
    ∀ s, pyIn pat s = false →
      pyCountAux pat s = 0 ∧ splitTok pat s = [s] ∧ ∀ rep, pyReplFirstAux pat rep s = s := by
  intro s
  induction s with
  | nil =>
    intro _
    refine ⟨by simp [pyCountAux], by simp [splitTok], fun _ => by simp [pyReplFirstAux]⟩
  | cons c cs ih =>
    intro h
    have h1 : isPre pat (c :: cs) = false := by
      cases hb : isPre pat (c :: cs)
      · rfl
      · simp [pyIn, hb] at h
    have h2 : pyIn pat cs = false := by
      cases hb : pyIn pat cs
      · rfl
      · simp [pyIn, hb] at h
    obtain ⟨hc, hs, hr⟩ := ih h2
    refine ⟨?_, ?_, ?_⟩
    · simp [pyCountAux, h1, hc]
    · rw [splitTok]
      simp [h1, hs]
    · intro rep
      simp [pyReplFirstAux, h1, hr rep]

/-- Decomposition at the leftmost occurrence: if `pat` occurs in `s`, then
`s = p0 ++ pat ++ rest` where `p0` is match-free, and each scanner acts on
`s` as on that decomposition. -/
theorem pyScan_decomp (pat : Str) (hp : pat ≠ []) (rep : Str) :
    ∀ s : Str, pyIn pat s = true →
      ∃ p0 rest, s = p0 ++ pat ++ rest ∧
        pyReplFirstAux pat rep s = p0 ++ rep ++ rest ∧
        pyCountAux pat s = pyCountAux pat rest + 1 ∧
        splitTok pat s = p0 :: splitTok pat rest ∧
        (∀ i, i < p0.length → isPre pat (p0.drop i) = false) := by
  intro s
  induction s with
  | nil =>
    intro h
    rw [pyIn] at h
    cases pat with
    | nil => exact absurd rfl hp
    | cons p ps => simp [List.isEmpty] at h
  | cons c cs ih =>
    intro h
    by_cases hpre : isPre pat (c :: cs) = true
    · obtain ⟨p, ps, rfl⟩ : ∃ p ps, pat = p :: ps := by
        cases pat with
        | nil => exact absurd rfl hp
        | cons p ps => exact ⟨p, ps, rfl⟩
      rcases isPre_iff.mp hpre with ⟨t, ht⟩
      have hlen : (p :: ps).length - 1 = ps.length := by simp
      have ht2 : t = cs.drop ps.length := by
        have h3 := congrArg (List.drop (p :: ps).length) ht
        rw [List.drop_left] at h3
        simpa using h3
      refine ⟨[], cs.drop ps.length, ?_, ?_, ?_, ?_, ?_⟩
      · simpa [ht2] using ht.symm
      · simp [pyReplFirstAux, hpre, hlen]
      · simp [pyCountAux, hpre, hlen, Nat.add_comm]
      · rw [splitTok]
        simp [hpre, hlen]
      · intro i hi
        simp at hi
    · have hin : pyIn pat cs = true := by
        cases hb : pyIn pat cs
        · rw [pyIn, hb] at h
          simp at h
          exact absurd h hpre
        · rfl
      obtain ⟨p0, rest, hseq, hrepl, hcnt, hsplit, hprop⟩ := ih hin
      have hpreF : isPre pat (c :: cs) = false := by
        cases hb : isPre pat (c :: cs)
        · rfl
        · exact absurd hb hpre
      refine ⟨c :: p0, rest, by simp [hseq], ?_, ?_, ?_, ?_⟩
      · simp [pyReplFirstAux, hpreF, hrepl]
      · simp [pyCountAux, hpreF, hcnt]
      · rw [splitTok]
        simp [hpreF, hsplit]
      · intro i hi
        cases i with
        | zero =>
          simp only [List.drop_zero]
          cases hb : isPre pat (c :: p0)
          · rfl
          · exfalso
            rcases isPre_iff.mp hb with ⟨t, ht⟩
            have : isPre pat (c :: cs) = true := by
              have hx : c :: cs = (pat ++ t) ++ (pat ++ rest) := by
                rw [ht, hseq]
                simp
              rw [hx, List.append_assoc]
              exact isPre_append pat (t ++ (pat ++ rest))
            exact absurd this hpre
        | succ j =>
          have hj : j < p0.length := by simpa using hi
          simpa using hprop j hj

/-! ## Inert blocks

A string `c` is an inert block for `pat` when no occurrence of `pat` can start
strictly inside `c`, whatever follows `c`.  The replacement tags used by
`ValueReplacer` are inert for their tokens (they are delimited by `<` and `>`,
characters the tokens do not contain), which is why the source's repeated
leftmost replacement never creates new occurrences. -/

def InertBlock (pat c : Str) : Prop :=
  ∀ (s : Str) (i : Nat), i < c.length → isPre pat ((c ++ s).drop i) = false

/-- Decidable sufficient condition for `InertBlock`: no suffix of `c` starts
with `pat` and no suffix of `c` is a start of `pat`. -/
def inertCheck (pat c : Str) : Bool :=
  (List.range c.length).all fun i => !isPre pat (c.drop i) && !isPre (c.drop i) pat

theorem drop_append_of_lt {c s : Str} {i : Nat} (hi : i < c.length) :
    (c ++ s).drop i = c.drop i ++ s := by
  rw [List.drop_append_eq_append_drop, Nat.sub_eq_zero_of_le (Nat.le_of_lt hi), List.drop_zero]

theorem inertBlock_of_check {pat c : Str} (h : inertCheck pat c = true) : InertBlock pat c := by
  intro s i hi
  have hchk := (List.all_eq_true.mp h) i (List.mem_range.mpr hi)
  simp only [Bool.and_eq_true, Bool.not_eq_true'] at hchk
  rw [drop_append_of_lt hi]
  cases hb : isPre pat (c.drop i ++ s)
  · rfl
  · exfalso
    by_cases hlen : pat.length ≤ (c.drop i).length
    · have := isPre_of_isPre_append_left hb hlen
      rw [hchk.1] at this
      exact Bool.false_ne_true this
    · have := isPre_rev_of_isPre_append hb (by omega)
      rw [hchk.2] at this
      exact Bool.false_ne_true this

theorem inert_tail {pat : Str} {a : Char} {as : Str} (h : InertBlock pat (a :: as)) :
    InertBlock pat as := by
  intro s i hi
  have := h s (i + 1) (by simpa using Nat.succ_lt_succ hi)
  simpa using this

theorem inert_head {pat : Str} {a : Char} {as : Str} (h : InertBlock pat (a :: as)) (s : Str) :
    isPre pat (a :: (as ++ s)) = false := by
  have := h s 0 (by simp)
  simpa using this

theorem pyIn_append_of_inert {pat c : Str} (h : InertBlock pat c) (s : Str) :
    pyIn pat (c ++ s) = pyIn pat s := by
  induction c with
  | nil => rfl
  | cons a as ih =>
    have h0 := inert_head h s
    simp only [List.cons_append, pyIn, List.append_eq, h0, Bool.false_or]
    exact ih (inert_tail h)

theorem pyCountAux_append_of_inert {pat c : Str} (h : InertBlock pat c) (s : Str) :
    pyCountAux pat (c ++ s) = pyCountAux pat s := by
  induction c with
  | nil => rfl
  | cons a as ih =>
    have h0 := inert_head h s
    rw [List.cons_append, pyCountAux]
    simp only [h0, Bool.false_eq_true, if_false]
    exact ih (inert_tail h)

theorem pyReplFirstAux_append_of_inert {pat c : Str} (h : InertBlock pat c) (rep s : Str) :
    pyReplFirstAux pat rep (c ++ s) = c ++ pyReplFirstAux pat rep s := by
  induction c with
  | nil => rfl
  | cons a as ih =>
    have h0 := inert_head h s
    rw [List.cons_append, pyReplFirstAux]
    simp only [h0, Bool.false_eq_true, if_false, List.cons_append]
    rw [ih (inert_tail h)]

theorem splitTok_append_of_inert {pat c : Str} (h : InertBlock pat c) (s q : Str)
    (qs : List Str) (hs : splitTok pat s = q :: qs) :
    splitTok pat (c ++ s) = (c ++ q) :: qs := by
  induction c with
  | nil => simpa using hs
  | cons a as ih =>
    have h0 := inert_head h s
    rw [List.cons_append, splitTok]
    simp only [h0, Bool.false_and, Bool.false_eq_true, if_false]
    rw [ih (inert_tail h)]
    rfl

theorem inert_append {pat a b : Str} (ha : InertBlock pat a) (hb : InertBlock pat b) :
    InertBlock pat (a ++ b) := by
  intro s i hi
  rw [List.append_assoc]
  by_cases hia : i < a.length
  · exact ha (b ++ s) i hia
  · have h1 : (a ++ (b ++ s)).drop i = (b ++ s).drop (i - a.length) := by
      rw [List.drop_append_eq_append_drop, List.drop_eq_nil_of_le (by omega)]
      simp
    rw [h1]
    have hi2 : i - a.length < b.length := by
      simp only [List.length_append] at hi
      omega
    exact hb s (i - a.length) hi2

/-- A match-free segment followed by an inert tag whose first character is not
a character of the token is itself inert. -/
theorem inert_block_build {pat p0 tag : Str}
    (h0 : ∀ i, i < p0.length → isPre pat (p0.drop i) = false)
    (htag : InertBlock pat tag) (htne : tag ≠ []) (hhead : tag.headI ∉ pat) :
    InertBlock pat (p0 ++ tag) := by
  intro s i hi
  by_cases hip : i < p0.length
  · rw [List.append_assoc, drop_append_of_lt hip]
    cases hb : isPre pat (p0.drop i ++ (tag ++ s))
    · rfl
    · exfalso
      by_cases hlen : pat.length ≤ (p0.drop i).length
      · have := isPre_of_isPre_append_left hb hlen
        rw [h0 i hip] at this
        exact Bool.false_ne_true this
      · have hrev : isPre (p0.drop i) pat = true := isPre_rev_of_isPre_append hb (by omega)
        rcases isPre_iff.mp hrev with ⟨t2, ht2⟩
        rcases isPre_iff.mp hb with ⟨t3, ht3⟩
        have ht4 : t2 ++ t3 = tag ++ s := by
          rw [← ht2, List.append_assoc] at ht3
          exact List.append_cancel_left ht3
        have ht2ne : t2 ≠ [] := by
          intro he
          subst he
          simp at ht2
          rw [ht2] at hlen
          exact hlen (le_refl _)
        obtain ⟨x, xs, rfl⟩ : ∃ x xs, t2 = x :: xs := by
          cases t2 with
          | nil => exact absurd rfl ht2ne
          | cons x xs => exact ⟨x, xs, rfl⟩
        obtain ⟨y, ys, rfl⟩ : ∃ y ys, tag = y :: ys := by
          cases tag with
          | nil => exact absurd rfl htne
          | cons y ys => exact ⟨y, ys, rfl⟩
        have hxy : x = y := by
          simpa using congrArg (fun l => l.headI) ht4
        have hxpat : x ∈ pat := by
          rw [← ht2]
          simp
        rw [hxy] at hxpat
        exact hhead (by simpa using hxpat)
  · rw [List.append_assoc]
    have h1 : (p0 ++ (tag ++ s)).drop i = (tag ++ s).drop (i - p0.length) := by
      rw [List.drop_append_eq_append_drop, List.drop_eq_nil_of_le (by omega)]
      simp
    rw [h1]
    have hi2 : i - p0.length < tag.length := by
      simp only [List.length_append] at hi
      omega
    exact htag s (i - p0.length) hi2

/-! ## The notation transformer (`ValueReplacer`, generate_libelles.py lines 23-84) -/

/-- Embeds the while-loop of `ValueReplacer.replaceStartEnd` (lines 47-51):
repeatedly replace the leftmost occurrence, alternating the replacement tag.
The first argument bounds the number of iterations; `replaceStartEnd` runs the
loop with bound `pyCount tok s`, and `replaceLoop_spec` proves that for the
tags actually used the loop reaches its exit condition (`pyIn = false`) in
exactly that many iterations, so the bound never cuts the loop short. -/
def replaceLoop (pat startReplaced endReplaced : Str) : Nat → Str → Nat → Str
  | 0, s, _ => s
  | fuel + 1, s, replacedCount =>
    if pyIn pat s then
      replaceLoop pat startReplaced endReplaced fuel
        (pyReplaceFirst pat (if replacedCount % 2 = 0 then startReplaced else endReplaced) s)
        (replacedCount + 1)
    else s

namespace ValueReplacer

def startBoldHtml : Str := "<strong>".toList
def endBoldHtml : Str := "</strong>".toList
/-- Source name `boldNotation` (line 27). -/
def boldTok : Str := "**".toList

def startOblique : Str := "<span class=\"_pale _oblique\">".toList
def endOblique : Str := "</span>".toList
/-- Source name `obliqueNotation` (line 31). -/
def obliqueTok : Str := "__".toList

def startGreen : Str := "<span style=\"color: green;\">".toList
def endGreen : Str := "</span>".toList
/-- Source name `greenNotation` (line 35). -/
def greenTok : Str := "_green_".toList

def startRed : Str := "<span style=\"color: red;\">".toList
def endRed : Str := "</span>".toList
/-- Source name `redNotation` (line 39). -/
def redTok : Str := "_red_".toList

/-- Embeds `ValueReplacer.replaceStartEnd` (lines 42-52): if the token occurs
and its count is even, run the alternating leftmost-replacement loop,
otherwise return the string unchanged. -/
def replaceStartEnd (s tok startReplaced endReplaced : Str) : Str :=
  if pyIn tok s && decide (pyCount tok s % 2 = 0) then
    replaceLoop tok startReplaced endReplaced (pyCount tok s) s 0
  else s

def newlineTok : Str := "\n".toList
def brTag : Str := "<br />".toList

/-- Embeds `ValueReplacer.replace` (lines 55-84): newlines to `<br />`, then
the four notations in the fixed order bold, oblique, green, red. -/
def replace (s : Str) : Str :=
  let r0 := pyReplaceAll newlineTok brTag s
  let r1 := replaceStartEnd r0 boldTok startBoldHtml endBoldHtml
  let r2 := replaceStartEnd r1 obliqueTok startOblique endOblique
  let r3 := replaceStartEnd r2 greenTok startGreen endGreen
  replaceStartEnd r3 redTok startRed endRed

end ValueReplacer

/-- Spec-side description of one notation pass (claim C2, spec section 4.1
step 2): when the token count is even, the occurrences are replaced
alternately by the opening and closing tag in left-to-right order; when it is
odd, the string is returned with every occurrence left unchanged. -/
def specAlternate (tok startTag endTag s : Str) : Str :=
  if pyCount tok s % 2 = 0 then joinAlt startTag endTag 0 (splitTok tok s) else s

theorem replaceLoop_spec (pat startReplaced endReplaced : Str) (hp : pat ≠ [])
    (hstI : InertBlock pat startReplaced) (henI : InertBlock pat endReplaced)
    (hstne : startReplaced ≠ []) (hene : endReplaced ≠ [])
    (hsth : startReplaced.headI ∉ pat) (henh : endReplaced.headI ∉ pat) :
    ∀ n s k fuel, pyCountAux pat s = n → n ≤ fuel →
      replaceLoop pat startReplaced endReplaced fuel s k =
        joinAlt startReplaced endReplaced k (splitTok pat s) := by
  intro n
  induction n with
  | zero =>
    intro s k fuel hc hf
    have hin : pyIn pat s = false := by
      cases hin : pyIn pat s
      · rfl
      · obtain ⟨p0, rest, _, _, hcnt, _, _⟩ := pyScan_decomp pat hp startReplaced s hin
        omega
    obtain ⟨_, hs, _⟩ := scan_of_not_pyIn pat s hin
    cases fuel with
    | zero => simp [replaceLoop, hs, joinAlt]
    | succ f => simp [replaceLoop, hin, hs, joinAlt]
  | succ n ih =>
    intro s k fuel hc hf
    have hin : pyIn pat s = true := by
      cases hin : pyIn pat s
      · obtain ⟨hc0, _, _⟩ := scan_of_not_pyIn pat s hin
        omega
      · rfl
    obtain ⟨fuel, rfl⟩ : ∃ f, fuel = f + 1 := ⟨fuel - 1, by omega⟩
    obtain ⟨p0, rest, hseq, hrepl, hcnt, hsplit, hprop⟩ :=
      pyScan_decomp pat hp (if k % 2 = 0 then startReplaced else endReplaced) s hin
    have htagI : InertBlock pat (if k % 2 = 0 then startReplaced else endReplaced) := by
      by_cases hk : k % 2 = 0 <;> simp [hk, hstI, henI]
    have htagne : (if k % 2 = 0 then startReplaced else endReplaced) ≠ [] := by
      by_cases hk : k % 2 = 0 <;> simp [hk, hstne, hene]
    have htagh : (if k % 2 = 0 then startReplaced else endReplaced).headI ∉ pat := by
      by_cases hk : k % 2 = 0 <;> simp [hk, hsth, henh]
    have hblock : InertBlock pat (p0 ++ (if k % 2 = 0 then startReplaced else endReplaced)) :=
      inert_block_build hprop htagI htagne htagh
    have hpatE : pat.isEmpty = false := by
      cases pat with
      | nil => exact absurd rfl hp
      | cons p ps => rfl
    have hpr : pyReplaceFirst pat (if k % 2 = 0 then startReplaced else endReplaced) s =
        (p0 ++ (if k % 2 = 0 then startReplaced else endReplaced)) ++ rest := by
      rw [pyReplaceFirst, hpatE]
      simp only [Bool.false_eq_true, if_false]
      rw [hrepl, List.append_assoc]
    have hc2 : pyCountAux pat
        ((p0 ++ (if k % 2 = 0 then startReplaced else endReplaced)) ++ rest) = n := by
      rw [pyCountAux_append_of_inert hblock]
      omega
    obtain ⟨q, qs, hq⟩ : ∃ q qs, splitTok pat rest = q :: qs := by
      cases hq : splitTok pat rest with
      | nil => exact absurd hq (splitTok_ne_nil pat rest)
      | cons q qs => exact ⟨q, qs, rfl⟩
    rw [replaceLoop]
    simp only [hin, if_true]
    rw [hpr, ih _ (k + 1) fuel hc2 (by omega)]
    rw [splitTok_append_of_inert hblock rest q qs hq]
    rw [hsplit, hq, joinAlt_cons_append, List.append_assoc]
    have hkk : (k + 1) % 2 = 0 ↔ ¬(k % 2 = 0) := by omega
    cases qs with
    | nil => simp [joinAlt]
    | cons r rs => simp [joinAlt]

/-- The source's `replaceStartEnd` equals the spec-side alternating
replacement, for any token/tag triple whose tags are inert for the token. -/
theorem replaceStartEnd_eq_specAlternate (pat startReplaced endReplaced : Str) (hp : pat ≠ [])
    (hstI : InertBlock pat startReplaced) (henI : InertBlock pat endReplaced)
    (hstne : startReplaced ≠ []) (hene : endReplaced ≠ [])
    (hsth : startReplaced.headI ∉ pat) (henh : endReplaced.headI ∉ pat) (s : Str) :
    ValueReplacer.replaceStartEnd s pat startReplaced endReplaced =
      specAlternate pat startReplaced endReplaced s := by
  have hpatE : pat.isEmpty = false := by
    cases pat with
    | nil => exact absurd rfl hp
    | cons p ps => rfl
  have hcount : pyCount pat s = pyCountAux pat s := by
    rw [pyCount, hpatE]
    simp
  rw [ValueReplacer.replaceStartEnd, specAlternate]
  cases hin : pyIn pat s with
  | false =>
    obtain ⟨hc0, hs, _⟩ := scan_of_not_pyIn pat s hin
    simp only [Bool.false_and, Bool.false_eq_true, if_false, hcount, hc0]
    simp [hs, joinAlt]
  | true =>
    by_cases hpar : pyCount pat s % 2 = 0
    · rw [if_pos (by simp [hin, hpar]), if_pos hpar]
      exact replaceLoop_spec pat startReplaced endReplaced hp hstI henI hstne hene hsth henh
        (pyCountAux pat s) s 0 (pyCount pat s) rfl (le_of_eq hcount.symm)
    · simp [hin, hpar]

/-- C2: for every input string and each of the four notation tokens (bold
`**`, oblique `__`, green `_green_`, red `_red_`), `replaceStartEnd` replaces
an even number of occurrences alternately with the opening then the closing
markup tag in left-to-right order, and leaves the string entirely unchanged
when the occurrence count is odd (this is `specAlternate`, the spec-side
description of that behaviour). -/
theorem C2_notation_balance (s : Str) :
    (ValueReplacer.replaceStartEnd s ValueReplacer.boldTok
        ValueReplacer.startBoldHtml ValueReplacer.endBoldHtml =
      specAlternate ValueReplacer.boldTok
        ValueReplacer.startBoldHtml ValueReplacer.endBoldHtml s) ∧
    (ValueReplacer.replaceStartEnd s ValueReplacer.obliqueTok
        ValueReplacer.startOblique ValueReplacer.endOblique =
      specAlternate ValueReplacer.obliqueTok
        ValueReplacer.startOblique ValueReplacer.endOblique s) ∧
    (ValueReplacer.replaceStartEnd s ValueReplacer.greenTok
        ValueReplacer.startGreen ValueReplacer.endGreen =
      specAlternate ValueReplacer.greenTok
        ValueReplacer.startGreen ValueReplacer.endGreen s) ∧
    (ValueReplacer.replaceStartEnd s ValueReplacer.redTok
        ValueReplacer.startRed ValueReplacer.endRed =
      specAlternate ValueReplacer.redTok
        ValueReplacer.startRed ValueReplacer.endRed s) := by
  refine ⟨?_, ?_, ?_, ?_⟩
  · exact replaceStartEnd_eq_specAlternate _ _ _ (by decide)
      (inertBlock_of_check (by decide)) (inertBlock_of_check (by decide))
      (by decide) (by decide) (by decide) (by decide) s
  · exact replaceStartEnd_eq_specAlternate _ _ _ (by decide)
      (inertBlock_of_check (by decide)) (inertBlock_of_check (by decide))
      (by decide) (by decide) (by decide) (by decide) s
  · exact replaceStartEnd_eq_specAlternate _ _ _ (by decide)
      (inertBlock_of_check (by decide)) (inertBlock_of_check (by decide))
      (by decide) (by decide) (by decide) (by decide) s
  · exact replaceStartEnd_eq_specAlternate _ _ _ (by decide)
      (inertBlock_of_check (by decide)) (inertBlock_of_check (by decide))
      (by decide) (by decide) (by decide) (by decide) s

/-! ## Cell values and the per-file translation store
(`TranslationLangNs`, generate_libelles.py lines 88-142) -/

/-- A scalar cell value as the scripts see it: a string, or a non-string
scalar (openpyxl yields numbers for numeric cells when `data_only=True`).
Calling `.replace` on a non-string raises `AttributeError` in Python. -/
inductive CellVal
  | str (s : Str)
  | num (n : Int)
deriving DecidableEq

/-- A cell: `none` is Python `None` (an empty cell). -/
abbrev Cell := Option CellVal

/-- A stored scalar: the content string plus the block-folded-rendering mark
set by `stringToYaml` (a pure formatting decision). -/
structure YamlVal where
  folded : Bool
  content : Str
deriving DecidableEq

/-- Embeds `stringToYaml` (lines 97-102): values containing a newline or
longer than 76 characters are marked for folded rendering; the content is
unchanged. -/
def stringToYaml (s : Str) : YamlVal :=
  { folded := pyIn ValueReplacer.newlineTok s || decide (s.length > 76), content := s }

/-- Embeds the per-language, per-section store `TranslationLangNs`
(lines 88-94): the dirty bit `modified`, the insertion-ordered mapping
`data`, and the backing file path `file`. -/
structure TranslationLangNs where
  modified : Bool
  data : List (Str × YamlVal)
  file : Str
deriving DecidableEq

/-- Embeds `TranslationLangNs.__init__` (lines 89-94): dirty bit clear, empty
mapping.  (The source parameter is named `excel_file_path` although it
receives the YAML file path.) -/
def TranslationLangNs.init (excel_file_path : Str) : TranslationLangNs :=
  { modified := false, data := [], file := excel_file_path }

/-- Embeds `loadCurrentTranslations` (lines 105-114) on a successfully parsed
file.  The YAML parse itself is an excluded external collaborator (spec
section 1), so the parsed path-to-string mapping is the input; each value is
canonicalized through `stringToYaml`.  The `modified` flag is untouched. -/
def TranslationLangNs.loadCurrentTranslations (st : TranslationLangNs)
    (translationData : List (Str × Str)) : TranslationLangNs :=
  { st with data := translationData.map (fun kv => (kv.1, stringToYaml kv.2)) }

/-- File-system operations a `save` call can perform.  The alphabet includes
`makedirs` (Python `os.makedirs`) so that the absence of directory creation
is expressible; `generate_libelles.py` never calls it. -/
inductive FsOp
  | openWrite (path : Str)
  | write (s : Str)
  | dumpYaml (d : List (Str × YamlVal))
  | makedirs (path : Str)
deriving DecidableEq

def headerLine1 : Str :=
  "# This file was automatically generated by the Evolution Generator.\n".toList

def headerLine2 : Str :=
  "# The Evolution Generator is used to automate the creation of consistent, reliable code.\n".toList

def headerLine3 : Str :=
  "# Any changes made to this file will be overwritten.\n\n".toList

/-- Embeds `save` (lines 117-128) as the sequence of file-system operations
it performs: nothing when the dirty bit is clear; otherwise open the store's
file for writing, write the three fixed header comment lines (the third is
followed by a blank line), and dump the mapping in insertion order (`data` is
kept in insertion order; the YAML serializer is an excluded external
collaborator and is order-preserving). -/
def TranslationLangNs.save (st : TranslationLangNs) : List FsOp :=
  if st.modified then
    [FsOp.openWrite st.file, FsOp.write headerLine1, FsOp.write headerLine2,
      FsOp.write headerLine3, FsOp.dumpYaml st.data]
  else []

/-- The literal placeholder token rewritten by `addTranslation` (line 135). -/
def nomTok : Str := "[nom]".toList

/-- The interpolation form the placeholder is rewritten to (line 135). -/
def nicknameRepl : Str := "\x7b\x7bnickname\x7d\x7d".toList

/-- The error raised by `value.replace` when `value` is not a string. -/
def attrErrMsg : Str := "AttributeError: replace".toList

/-- Embeds `TranslationLangNs.addTranslation` (lines 131-142).  The overwrite
gate is checked first; then `value.replace("[nom]", "{{nickname}}")` runs
(raising `AttributeError` for a non-string value, before any mutation); then,
unless `keepMarkdown`, the notation transformer; the result is stored and the
dirty bit set. -/
def TranslationLangNs.addTranslation (st : TranslationLangNs) (path : Str) (value : CellVal)
    (overwrite keepMarkdown : Bool) : Except Str TranslationLangNs :=
  if !overwrite && containsKey st.data path then Except.ok st
  else
    match value with
    | CellVal.num _ => Except.error attrErrMsg
    | CellVal.str s =>
      let v1 := pyReplaceAll nomTok nicknameRepl s
      let v2 := if !keepMarkdown then ValueReplacer.replace v1 else v1
      Except.ok { st with data := dictSet st.data path (stringToYaml v2), modified := true }

/-- The value transformation a stored `addTranslation` call performs: the
placeholder rewrite runs unconditionally; the notation transformer runs only
when `keepMarkdown` is false. -/
def transformValue (keepMarkdown : Bool) (s : Str) : Str :=
  if keepMarkdown then pyReplaceAll nomTok nicknameRepl s
  else ValueReplacer.replace (pyReplaceAll nomTok nicknameRepl s)

/-- An `addTranslation` call that is not blocked by the overwrite gate stores
the transformed value and sets the dirty bit. -/
theorem addTranslation_stored (st : TranslationLangNs) (path s : Str) (ow km : Bool)
    (h : (!ow && containsKey st.data path) = false) :
    st.addTranslation path (CellVal.str s) ow km =
      Except.ok
        { st with
          modified := true
          data := dictSet st.data path (stringToYaml (transformValue km s)) } := by
  simp only [TranslationLangNs.addTranslation, h, Bool.false_eq_true, if_false]
  cases km <;> simp [transformValue]

/-- A gate-blocked `addTranslation` call returns the store unchanged. -/
theorem addTranslation_blocked (st : TranslationLangNs) (path : Str) (value : CellVal) (km : Bool)
    (hc : containsKey st.data path = true) :
    st.addTranslation path value false km = Except.ok st := by
  simp [TranslationLangNs.addTranslation, hc]

/-- An `addTranslation` call on a non-string value that passes the gate
raises before mutating anything. -/
theorem addTranslation_num_error (st : TranslationLangNs) (path : Str) (n : Int) (ow km : Bool)
    (h : (!ow && containsKey st.data path) = false) :
    st.addTranslation path (CellVal.num n) ow km = Except.error attrErrMsg := by
  simp [TranslationLangNs.addTranslation, h]

/-! ## Claims C3, C6, C7 (store-level behaviour) -/

/-- C3: for every store, path and value, if the path already exists in the
store's mapping and overwrite is false, `addTranslation` is a no-op (stored
value and dirty bit unchanged); otherwise the transformed value is stored
under the path and the dirty bit is set to true.  (Per the spec's data model,
section 3, a `TranslationValue` is a raw string; the stored branch is stated
for string values, which are the only ones `addTranslation` can store.) -/
theorem C3_overwrite_gate (st : TranslationLangNs) (p : Str) (v : CellVal) (s : Str)
    (ow km : Bool) :
    (ow = false → containsKey st.data p = true →
      st.addTranslation p v ow km = Except.ok st) ∧
    (ow = true ∨ containsKey st.data p = false →
      st.addTranslation p (CellVal.str s) ow km =
        Except.ok
          { st with
            modified := true
            data := dictSet st.data p (stringToYaml (transformValue km s)) }) := by
  constructor
  · intro how hc
    subst how
    exact addTranslation_blocked st p v km hc
  · intro h
    refine addTranslation_stored st p s ow km ?_
    rcases h with h | h <;> simp [h]

def wPathAB : Str := "a.b".toList

def wValOld : Str := "old".toList

def wValNew : Str := "new".toList

def wFileF : Str := "f.yml".toList

def cw3Store : TranslationLangNs :=
  { modified := false, data := [(wPathAB, stringToYaml wValOld)], file := wFileF }

theorem C3_overwrite_gate_witness :
    (false = false ∧ containsKey cw3Store.data wPathAB = true ∧
      cw3Store.addTranslation wPathAB (CellVal.str wValNew) false false =
        Except.ok cw3Store) ∧
    ((true = true ∨ containsKey cw3Store.data wPathAB = false) ∧
      cw3Store.addTranslation wPathAB (CellVal.str wValNew) true false =
        Except.ok
          { cw3Store with
            modified := true
            data := dictSet cw3Store.data wPathAB
              (stringToYaml (transformValue false wValNew)) }) :=
  ⟨⟨rfl, by decide,
      (C3_overwrite_gate cw3Store wPathAB (CellVal.str wValNew) wValNew false false).1
        rfl (by decide)⟩,
    ⟨Or.inl rfl,
      (C3_overwrite_gate cw3Store wPathAB (CellVal.str wValNew) wValNew true false).2
        (Or.inl rfl)⟩⟩

/-- C6: the dirty bit is false after construction and stays false through a
successful load (load touches only `data`); `save` performs no file
operation when the dirty bit is false; hence a store that receives zero
`addTranslation` calls never writes its file, even after a successful
`loadCurrentTranslations`. -/
theorem C6_dirty_bit (f : Str) (fd : List (Str × Str)) (st : TranslationLangNs) :
    (TranslationLangNs.init f).modified = false ∧
    (st.loadCurrentTranslations fd).modified = st.modified ∧
    ((TranslationLangNs.init f).loadCurrentTranslations fd).modified = false ∧
    (st.modified = false → st.save = []) ∧
    ((TranslationLangNs.init f).loadCurrentTranslations fd).save = [] := by
  refine ⟨rfl, rfl, rfl, ?_, rfl⟩
  intro h
  simp [TranslationLangNs.save, h]

def wLoadedVal : Str := "Bonjour".toList

theorem C6_dirty_bit_witness :
    cw3Store.modified = false ∧
    (TranslationLangNs.init wFileF).modified = false ∧
    ((TranslationLangNs.init wFileF).loadCurrentTranslations [(wPathAB, wLoadedVal)]).modified
      = false ∧
    cw3Store.save = [] :=
  ⟨rfl, (C6_dirty_bit wFileF [(wPathAB, wLoadedVal)] cw3Store).1,
    (C6_dirty_bit wFileF [(wPathAB, wLoadedVal)] cw3Store).2.2.1,
    (C6_dirty_bit wFileF [(wPathAB, wLoadedVal)] cw3Store).2.2.2.1 rfl⟩

/-- C7: for every value that is actually stored (not blocked by the overwrite
gate), the literal placeholder token `[nom]` is rewritten to the
interpolation form (`pyReplaceAll nomTok nicknameRepl`) unconditionally --
in the `keepMarkdown = true` branch exactly the placeholder rewrite and
nothing else is applied, while the `keepMarkdown = false` branch additionally
runs the notation transformer on the rewritten value. -/
theorem C7_placeholder_unconditional (st : TranslationLangNs) (p s : Str) (ow km : Bool)
    (st2 : TranslationLangNs)
    (hgate : ow = true ∨ containsKey st.data p = false)
    (hadd : st.addTranslation p (CellVal.str s) ow km = Except.ok st2) :
    dictGet? st2.data p =
      some (stringToYaml
        (if km then pyReplaceAll nomTok nicknameRepl s
          else ValueReplacer.replace (pyReplaceAll nomTok nicknameRepl s))) := by
  have hg : (!ow && containsKey st.data p) = false := by
    rcases hgate with h | h <;> simp [h]
  rw [addTranslation_stored st p s ow km hg] at hadd
  have hst2 : st2 =
      { st with
        modified := true
        data := dictSet st.data p (stringToYaml (transformValue km s)) } := by
    cases hadd
    rfl
  subst hst2
  show dictGet? (dictSet st.data p (stringToYaml (transformValue km s))) p = _
  rw [dictGet?_dictSet_self]
  rfl

def wNomVal : Str := "Bonjour [nom] !".toList

def cw7Result : TranslationLangNs :=
  { cw3Store with
    modified := true
    data := dictSet cw3Store.data wPathAB (stringToYaml (transformValue true wNomVal)) }

theorem C7_placeholder_unconditional_witness :
    (true = true ∨ containsKey cw3Store.data wPathAB = false) ∧
    cw3Store.addTranslation wPathAB (CellVal.str wNomVal) true true = Except.ok cw7Result ∧
    dictGet? cw7Result.data wPathAB =
      some (stringToYaml
        (if true then pyReplaceAll nomTok nicknameRepl wNomVal
          else ValueReplacer.replace (pyReplaceAll nomTok nicknameRepl wNomVal))) :=
  ⟨Or.inl rfl, addTranslation_stored cw3Store wPathAB wNomVal true true rfl,
    C7_placeholder_unconditional cw3Store wPathAB wNomVal true true cw7Result (Or.inl rfl)
      (addTranslation_stored cw3Store wPathAB wNomVal true true rfl)⟩

/-! ## Claim C9 (save: header, order, and the absence of directory creation) -/

def slashChar : Char := '/'

/-- The parent directory of a POSIX path (everything before the last slash). -/
def parentDirOf (p : Str) : Str :=
  ((p.reverse.dropWhile (fun c => decide (c ≠ slashChar))).drop 1).reverse

def fileNotFoundMsg : Str := "FileNotFoundError".toList

/-- Interpreter for the file-system effect of a save trace over a set of
existing directories: opening a file for writing fails unless its parent
directory already exists (Python `open(path, "w")` does not create
directories), while `makedirs` adds a directory. -/
def runFsOps (dirs : List Str) : List FsOp → Except Str Unit
  | [] => Except.ok ()
  | FsOp.openWrite p :: rest =>
    if parentDirOf p ∈ dirs then runFsOps dirs rest else Except.error fileNotFoundMsg
  | FsOp.makedirs p :: rest => runFsOps (p :: dirs) rest
  | FsOp.write _ :: rest => runFsOps dirs rest
  | FsOp.dumpYaml _ :: rest => runFsOps dirs rest

def cx9Path : Str := "out/fr/home.yml".toList

def cx9Parent : Str := "out/fr".toList

def cx9Root : Str := "out".toList

def cx9Store : TranslationLangNs :=
  { modified := true, data := [(wPathAB, stringToYaml wValOld)], file := cx9Path }

/-- C9 counterexample: the claim says `save()` creates the file's parent
directories if they do not already exist; the source's `save` performs no
`makedirs` operation, and on a file system where only the output root
exists (the store's parent directory `out/fr` is missing) the dirty store's
save trace fails with `FileNotFoundError` instead of creating the directory
and succeeding. -/
theorem C9_counterexample :
    cx9Store.save =
      [FsOp.openWrite cx9Path, FsOp.write headerLine1, FsOp.write headerLine2,
        FsOp.write headerLine3, FsOp.dumpYaml cx9Store.data] ∧
    (∀ pth, FsOp.makedirs pth ∉ cx9Store.save) ∧
    runFsOps [cx9Root] cx9Store.save = Except.error fileNotFoundMsg := by
  refine ⟨rfl, ?_, ?_⟩
  · intro pth
    intro hmem
    simp [TranslationLangNs.save, cx9Store] at hmem
  · have hpar : parentDirOf cx9Path = cx9Parent := by decide
    have hne : cx9Parent ≠ cx9Root := by decide
    simp [TranslationLangNs.save, cx9Store, runFsOps, hpar, hne]

/-- C9 (amended): for every dirty store, `save` opens the store's file path
and writes the fixed three-line auto-generated-file comment header followed
by the mapping dumped in insertion order; it performs no directory creation,
so the write succeeds exactly when the file's parent directory already
exists and fails with `FileNotFoundError` when it does not. -/
theorem C9_save_amended (st : TranslationLangNs) (dirs : List Str) (hm : st.modified = true) :
    st.save =
      [FsOp.openWrite st.file, FsOp.write headerLine1, FsOp.write headerLine2,
        FsOp.write headerLine3, FsOp.dumpYaml st.data] ∧
    (∀ pth, FsOp.makedirs pth ∉ st.save) ∧
    (parentDirOf st.file ∈ dirs → runFsOps dirs st.save = Except.ok ()) ∧
    (parentDirOf st.file ∉ dirs → runFsOps dirs st.save = Except.error fileNotFoundMsg) := by
  have hs : st.save =
      [FsOp.openWrite st.file, FsOp.write headerLine1, FsOp.write headerLine2,
        FsOp.write headerLine3, FsOp.dumpYaml st.data] := by
    simp [TranslationLangNs.save, hm]
  refine ⟨hs, ?_, ?_, ?_⟩
  · intro pth hmem
    rw [hs] at hmem
    simp at hmem
  · intro hin
    rw [hs]
    simp [runFsOps, hin]
  · intro hout
    rw [hs]
    simp [runFsOps, hout]

theorem C9_save_amended_witness :
    cx9Store.modified = true ∧
    (cx9Store.save =
      [FsOp.openWrite cx9Store.file, FsOp.write headerLine1, FsOp.write headerLine2,
        FsOp.write headerLine3, FsOp.dumpYaml cx9Store.data] ∧
    (∀ pth, FsOp.makedirs pth ∉ cx9Store.save) ∧
    (parentDirOf cx9Store.file ∈ [cx9Parent] →
      runFsOps [cx9Parent] cx9Store.save = Except.ok ()) ∧
    (parentDirOf cx9Store.file ∉ [cx9Parent] →
      runFsOps [cx9Parent] cx9Store.save = Except.error fileNotFoundMsg)) :=
  ⟨rfl, C9_save_amended cx9Store [cx9Parent] rfl⟩

/-! ## Translation registry (`TranslationData`, lines 146-177) -/

def sepStr : Str := "/".toList

def ymlExt : Str := ".yml".toList

/-- The store file path `os.path.join(root, lang, section + ".yml")`
(line 170), with the POSIX separator. -/
def mkFilePath (root lang sect : Str) : Str :=
  root ++ sepStr ++ lang ++ sepStr ++ sect ++ ymlExt

def ctxPre : Str := "Exception occurred for ".toList

def spaceStr : Str := " ".toList

def colonSpace : Str := ": ".toList

/-- The context line printed by `TranslationData.addTranslation` on an
exception (line 176): `Exception occurred for {lang} {section} {path}: {e}`. -/
def ctxLogMsg (lang sect path e : Str) : Str :=
  ctxPre ++ lang ++ spaceStr ++ sect ++ spaceStr ++ path ++ colonSpace ++ e

/-- Embeds the registry `TranslationData` (lines 146-149): all stores indexed
by language then section, plus the output root. -/
structure TranslationData where
  translations : List (Str × List (Str × TranslationLangNs))
  libelles_output_folder_path : Str
deriving DecidableEq

def TranslationData.init (root : Str) : TranslationData :=
  { translations := [], libelles_output_folder_path := root }

/-- Embeds `TranslationData.addTranslations` (lines 152-155): registers a
pre-loaded store under (lang, section). -/
def TranslationData.addTranslations (td : TranslationData) (lang sect : Str)
    (tr : TranslationLangNs) : TranslationData :=
  let secs := (dictGet? td.translations lang).getD []
  { td with translations := dictSet td.translations lang (dictSet secs sect tr) }

/-- Embeds `TranslationData.addTranslation` (lines 164-177): lazily creates
the (lang, section) store, delegates to the store's `addTranslation`, and on
an exception prints the full (lang, section, path) context and re-raises the
same exception.  The result is (printed lines, registry state, raised
exception); the lazily created dictionaries persist even when the store add
raises, exactly as the Python `self.translations` mutations do. -/
def TranslationData.addTranslation (td : TranslationData) (lang sect path : Str)
    (value : CellVal) (overwrite keepMarkdown : Bool) :
    List Str × TranslationData × Option Str :=
  let secs := (dictGet? td.translations lang).getD []
  let st := (dictGet? secs sect).getD
    (TranslationLangNs.init (mkFilePath td.libelles_output_folder_path lang sect))
  match st.addTranslation path value overwrite keepMarkdown with
  | Except.ok st2 =>
    ([], { td with translations := dictSet td.translations lang (dictSet secs sect st2) }, none)
  | Except.error e =>
    ([ctxLogMsg lang sect path e],
      { td with translations := dictSet td.translations lang (dictSet secs sect st) }, some e)

/-- Embeds `TranslationData.save` (lines 158-161) as the concatenation of
every store's save trace, in registry iteration order. -/
def TranslationData.saveOps (td : TranslationData) : List FsOp :=
  (td.translations.map (fun ls => (ls.2.map (fun ss => ss.2.save)).flatten)).flatten

/-! ## Labels sheet and the locale dictionary (lines 206-233) -/

def keyHdr : Str := "key".toList

def namespaceHdr : Str := "namespace".toList

def mdHdr : Str := "md".toList

def oneStr : Str := "1".toList

def emptyStr : Str := "".toList

def underscoreChar : Char := '_'

def underscoreStr : Str := "_".toList

def structErrMsg : Str := "Missing expected headers in sheet Labels".toList

def sheetMissingMsg : Str := "Sheet Labels does not exist".toList

def notEnoughRowsMsg : Str := "Not enough rows in the Labels sheet".toList

def keyErrMsg : Str := "KeyError: key".toList

/-- The Labels sheet: a header row (its cells are modeled as the strings the
header discovery yields) followed by data rows of cells.  The source's
`len(list(sheet.rows))` is `1 + dataRows.length` (openpyxl always reports at
least the header row). -/
structure LabelsSheet where
  headerRow : List Str
  dataRows : List (List Cell)

/-- One pre-indexed label row: the header-to-cell dictionary
`dict(zip(headers, row))` of line 227 (`zip` truncates to the shorter list;
a duplicated header keeps its first position with the last value, as a
CPython dict does). -/
def zipDict (headers : List Str) (cells : List Cell) : List (Str × Cell) :=
  (List.zip headers cells).foldl (fun d kv => dictSet d kv.1 kv.2) []

/-- One pre-indexed label row as a header-to-cell dictionary. -/
abbrev LocRow := List (Str × Cell)

/-- The locale dictionary: label rows keyed by their `key` cell value (a
CPython dict key can be a string, a number, or `None`). -/
abbrev LocDict := List (Cell × LocRow)

/-- The locale dictionary built by lines 224-228: keyed by each row's `key`
cell, later rows overwriting earlier ones; a row without a `key` entry
raises `KeyError`. -/
def buildLocalesDict : LocDict → List (List (Str × Cell)) → Except Str LocDict
  | d, [] => Except.ok d
  | d, r :: rs =>
    match dictGet? r keyHdr with
    | none => Except.error keyErrMsg
    | some kv => buildLocalesDict (dictSet d kv r) rs

/-- Modelled from the spec: `sheet_exists` and `get_headers` live in
`helpers.generator_helpers`, which is not among this repository's source
files.  Per spec sections 4.4 and 6 the Labels sheet is header-driven and
must include a `key` column; `get_headers` returns the discovered headers
(the first row) and raises when `"key"` is absent. -/
def get_headers (sh : LabelsSheet) : Except Str (List Str) :=
  if keyHdr ∈ sh.headerRow then Except.ok sh.headerRow else Except.error structErrMsg

/-- The body of `__getTranslationsFromLocaleSheet`'s `try` block (lines
207-229): missing sheet (modelled from the spec's `sheet_exists`), the
row-count check (line 213), header discovery, then the dictionary build. -/
def getLocalesInner (labels : Option LabelsSheet) : Except Str LocDict :=
  match labels with
  | none => Except.error sheetMissingMsg
  | some sh =>
    if 1 + sh.dataRows.length ≤ 1 then Except.error notEnoughRowsMsg
    else
      match get_headers sh with
      | Except.error e => Except.error e
      | Except.ok headers => buildLocalesDict [] (sh.dataRows.map (zipDict headers))

/-- Embeds `__getTranslationsFromLocaleSheet` (lines 206-233): any exception
in the body is caught, logged, and an empty dictionary is returned. -/
def FillLocalesTranslations.getTranslationsFromLocaleSheet
    (labels : Option LabelsSheet) : LocDict :=
  match getLocalesInner labels with
  | Except.ok d => d
  | Except.error _ => []

/-! ## The extraction pipeline (lines 235-297) and orchestrator (lines 301-314) -/

def frLang : Str := "fr".toList

def enLang : Str := "en".toList

def locSwallowPre : Str := "Exception occurred in add Translations from locale: ".toList

def locSwallowMsg (e : Str) : Str := locSwallowPre ++ e

def excelExcPre : Str := "Exception occurred in addTranslationsFromExcel: ".toList

def excelExcMsg (e : Str) : Str := excelExcPre ++ e

def genErrPre : Str := "An error occurred: ".toList

def genErrMsg (e : Str) : Str := genErrPre ++ e

/-- The `keepMarkdown` computation of lines 238-242: the row's `md` cell must
be the literal string `"1"`; a missing `md` header, an empty cell, or any
other value (including the number 1) give false. -/
def rowKeepMarkdown (row : LocRow) : Bool :=
  match dictGet? row mdHdr with
  | some v => decide (v = some (CellVal.str oneStr))
  | none => false

/-- The column loop of `__addTranslationsFromLocales` (lines 243-257),
returning (printed lines, registry state, swallowed-an-exception flag).
Reserved columns (`namespace`, `key`, `md`) and empty or `None` cells are
skipped; a column whose part before the first underscore is longer than 2
characters is skipped; otherwise the translation is added under that prefix
as language and `question_name` (plus `_suffix` when present) as key.  A
raised exception stops the row: the `except` of lines 259-261 prints and
returns, so the remaining columns are not processed and no exception
escapes. -/
def locLoop (overwrite keepMarkdown : Bool) (sect question_name : Str) :
    TranslationData → LocRow → List Str × TranslationData × Bool
  | td, [] => ([], td, false)
  | td, (k, v) :: rest =>
    if k = namespaceHdr ∨ k = keyHdr ∨ k = mdHdr then
      locLoop overwrite keepMarkdown sect question_name td rest
    else if v = none ∨ v = some (CellVal.str emptyStr) then
      locLoop overwrite keepMarkdown sect question_name td rest
    else if (pySplit1 underscoreChar k).1.length > 2 then
      locLoop overwrite keepMarkdown sect question_name td rest
    else
      let translationKey :=
        match (pySplit1 underscoreChar k).2 with
        | some suf => question_name ++ underscoreStr ++ suf
        | none => question_name
      let res := TranslationData.addTranslation td (pySplit1 underscoreChar k).1 sect
        translationKey (v.getD (CellVal.str emptyStr)) overwrite keepMarkdown
      match res.2.2 with
      | none =>
        let r := locLoop overwrite keepMarkdown sect question_name res.2.1 rest
        (res.1 ++ r.1, r.2.1, r.2.2)
      | some e => (res.1 ++ [locSwallowMsg e], res.2.1, true)

/-- Embeds `__addTranslationsFromLocales` (lines 235-261). -/
def FillLocalesTranslations.addTranslationsFromLocales (td : TranslationData)
    (overwrite : Bool) (sect question_name : Str) (row : LocRow) :
    List Str × TranslationData × Bool :=
  locLoop overwrite (rowKeepMarkdown row) sect question_name td row

/-- One Widgets-sheet row as consumed by lines 272-292: positional columns
0 (question name), 3 (section), 5 (path), 6 (French), 7 (English).  The
question name, section and path are modeled as strings (they are used as
dictionary keys and concatenated into translation keys); the French/English
cells keep the full cell type.  `keepMarkdown` is hardcoded false for this
path (line 280; the `row[11]` read is commented out in the source). -/
structure WidgetRow where
  question_name : Str
  sect : Str
  path : Str
  fr : Cell
  en : Cell

/-- One default-strategy add (lines 285-292): only non-`None` cells are
added, with `keepMarkdown = False`. -/
def defaultAdd (td : TranslationData) (lang sect path : Str) (c : Cell) (overwrite : Bool) :
    List Str × TranslationData × Option Str :=
  match c with
  | none => ([], td, none)
  | some v => TranslationData.addTranslation td lang sect path v overwrite false

/-- One iteration of the Widgets row loop (lines 272-292): locale-override
strategy when the question name is a key of the locale dictionary (any
swallowed failure there does not escape), otherwise the default
French/English strategy, whose exceptions propagate. -/
def excelRow (locDict : LocDict) (overwrite : Bool) (td : TranslationData) (r : WidgetRow) :
    List Str × TranslationData × Option Str :=
  if containsKey locDict (some (CellVal.str r.question_name)) then
    let row := (dictGet? locDict (some (CellVal.str r.question_name))).getD []
    let res := FillLocalesTranslations.addTranslationsFromLocales td overwrite r.sect
      r.question_name row
    (res.1, res.2.1, none)
  else
    let res1 := defaultAdd td frLang r.sect r.path r.fr overwrite
    match res1.2.2 with
    | some e => (res1.1, res1.2.1, some e)
    | none =>
      let res2 := defaultAdd res1.2.1 enLang r.sect r.path r.en overwrite
      (res1.1 ++ res2.1, res2.2.1, res2.2.2)

/-- The Widgets row loop: a propagated exception aborts the remaining rows. -/
def excelLoop (locDict : LocDict) (overwrite : Bool) :
    TranslationData → List WidgetRow → List Str × TranslationData × Option Str
  | td, [] => ([], td, none)
  | td, r :: rs =>
    let res := excelRow locDict overwrite td r
    match res.2.2 with
    | some e => (res.1, res.2.1, some e)
    | none =>
      let res2 := excelLoop locDict overwrite res.2.1 rs
      (res.1 ++ res2.1, res2.2.1, res2.2.2)

/-- Embeds `addTranslationsFromExcel` (lines 264-297): build the locale
dictionary (degrading to empty on any internal failure), run the row loop,
and on a propagated exception print and re-raise (lines 295-297).  The
workbook and its Widgets sheet are passed in already read (spreadsheet
loading is an excluded external collaborator, spec section 1). -/
def FillLocalesTranslations.addTranslationsFromExcel (td : TranslationData) (overwrite : Bool)
    (widgets : List WidgetRow) (labels : Option LabelsSheet) :
    List Str × TranslationData × Option Str :=
  let locDict := FillLocalesTranslations.getTranslationsFromLocaleSheet labels
  let res := excelLoop locDict overwrite td widgets
  match res.2.2 with
  | some e => (res.1 ++ [excelExcMsg e], res.2.1, some e)
  | none => res

/-- The generated-file system: one entry per (language, section), holding the
mapping most recently written to `root/lang/section.yml`.  File enumeration,
path building and YAML (de)serialization are excluded external collaborators
(spec section 1): a written file is modeled by the mapping it serializes, and
re-parsing it yields each entry's content string. -/
abbrev FS := List ((Str × Str) × List (Str × YamlVal))

/-- The store produced for one existing file by `loadCurrentTranslations`
(lines 191-200): a fresh store on the file's path, loaded from the parsed
mapping (each stored value's content string). -/
def loadedStore (root lang sect : Str) (fd : List (Str × YamlVal)) : TranslationLangNs :=
  (TranslationLangNs.init (mkFilePath root lang sect)).loadCurrentTranslations
    (fd.map (fun kv => (kv.1, kv.2.content)))

/-- Embeds `FillLocalesTranslations.loadCurrentTranslations` (lines 191-200):
every existing file under the output root is loaded and registered under its
(language directory, section file name) pair. -/
def FillLocalesTranslations.loadCurrentTranslations (root : Str) (fs : FS) : TranslationData :=
  fs.foldl
    (fun td entry => td.addTranslations entry.1.1 entry.1.2
      (loadedStore root entry.1.1 entry.1.2 entry.2))
    (TranslationData.init root)

/-- The effect of `TranslationData.save` (lines 158-161) on the generated
files: every dirty store's mapping replaces (or creates) its file; clean
stores leave their files untouched. -/
def TranslationData.saveFs (td : TranslationData) (fs : FS) : FS :=
  td.translations.foldl
    (fun fs1 ls =>
      ls.2.foldl
        (fun fs2 ss => if ss.2.modified then dictSet fs2 (ls.1, ss.1) ss.2.data else fs2) fs1)
    fs

/-- Embeds `generate_libelles` (lines 301-314): load existing files, run the
extraction, and either save (returning the new file system) or print and
re-raise the propagated exception, in which case nothing is saved. -/
def generate_libelles (fs : FS) (widgets : List WidgetRow) (labels : Option LabelsSheet)
    (root : Str) (overwrite : Bool) : List Str × Except Str FS :=
  let td0 := FillLocalesTranslations.loadCurrentTranslations root fs
  let res := FillLocalesTranslations.addTranslationsFromExcel td0 overwrite widgets labels
  match res.2.2 with
  | some e => (res.1 ++ [genErrMsg e], Except.error e)
  | none => (res.1, Except.ok (res.2.1.saveFs fs))

/-- The registry state at the end of a run (after extraction, before save). -/
def runRegistry (fs : FS) (widgets : List WidgetRow) (labels : Option LabelsSheet)
    (root : Str) (overwrite : Bool) : TranslationData :=
  (FillLocalesTranslations.addTranslationsFromExcel
    (FillLocalesTranslations.loadCurrentTranslations root fs) overwrite widgets labels).2.1

/-! ## Claim C5 (short Labels sheet: raised, caught, degraded to empty) -/

def rootStr : Str := "out".toList

def sectS : Str := "survey_home".toList

def pathP : Str := "home.intro".toList

def qnX : Str := "X".toList

/-- C5 (amended): when the Labels sheet has one row or fewer (header only),
the row-count check raises inside `__getTranslationsFromLocaleSheet`, but the
helper's own `except` catches it and returns the empty locale dictionary, so
extraction continues with the default strategy instead of aborting. -/
theorem C5_labels_rows_amended (sh : LabelsSheet) (h : 1 + sh.dataRows.length ≤ 1) :
    getLocalesInner (some sh) = Except.error notEnoughRowsMsg ∧
    FillLocalesTranslations.getTranslationsFromLocaleSheet (some sh) = [] := by
  have h1 : getLocalesInner (some sh) = Except.error notEnoughRowsMsg := by
    simp [getLocalesInner, h]
  exact ⟨h1, by simp [FillLocalesTranslations.getTranslationsFromLocaleSheet, h1]⟩

def cx5Labels : LabelsSheet := { headerRow := [keyHdr], dataRows := [] }

def cx5Widget : WidgetRow :=
  { question_name := qnX, sect := sectS, path := pathP, fr := some (CellVal.str wValOld),
    en := none }

theorem C5_labels_rows_amended_witness :
    1 + cx5Labels.dataRows.length ≤ 1 ∧
    (getLocalesInner (some cx5Labels) = Except.error notEnoughRowsMsg ∧
      FillLocalesTranslations.getTranslationsFromLocaleSheet (some cx5Labels) = []) :=
  ⟨by decide, C5_labels_rows_amended cx5Labels (by decide)⟩

/-- C5 counterexample: a run against a spreadsheet whose Labels sheet has
only its header row does not abort: the internal `Not enough rows` exception
is swallowed by the helper, the locale dictionary degrades to empty, and the
whole run completes successfully (here producing one generated file from the
default strategy). -/
theorem C5_counterexample :
    getLocalesInner (some cx5Labels) = Except.error notEnoughRowsMsg ∧
    FillLocalesTranslations.getTranslationsFromLocaleSheet (some cx5Labels) = [] ∧
    (generate_libelles [] [cx5Widget] (some cx5Labels) rootStr false).2 =
      Except.ok [((frLang, sectS), [(pathP, stringToYaml wValOld)])] ∧
    (generate_libelles [] [cx5Widget] (some cx5Labels) rootStr false).1 = [] := by
  refine ⟨rfl, rfl, ?_, ?_⟩ <;>
    simp [generate_libelles, FillLocalesTranslations.addTranslationsFromExcel,
      FillLocalesTranslations.getTranslationsFromLocaleSheet, getLocalesInner, get_headers,
      FillLocalesTranslations.loadCurrentTranslations, TranslationData.init, excelLoop,
      excelRow, defaultAdd, TranslationData.addTranslation, TranslationData.saveFs,
      TranslationLangNs.addTranslation, TranslationLangNs.init, containsKey, dictGet?,
      dictSet, cx5Widget, cx5Labels, transformValue, ValueReplacer.replace,
      ValueReplacer.replaceStartEnd, pyReplaceAll, pyReplAllAux, pyIn, isPre, pyCount,
      pyCountAux, stringToYaml, nomTok, nicknameRepl, wValOld, frLang, enLang, sectS, pathP,
      qnX, rootStr, ValueReplacer.newlineTok, ValueReplacer.brTag, ValueReplacer.boldTok,
      ValueReplacer.obliqueTok, ValueReplacer.greenTok, ValueReplacer.redTok, emptyStr]

/-! ## Claim C10 (duplicate keys in the Labels sheet: last row wins) -/

theorem buildLocalesDict_lookup (rows : List LocRow) :
    ∀ (d0 d : LocDict) (kv : Cell), buildLocalesDict d0 rows = Except.ok d →
      dictGet? d kv =
        match rows.reverse.find? (fun r => decide (dictGet? r keyHdr = some kv)) with
        | some r => some r
        | none => dictGet? d0 kv := by
  induction rows with
  | nil =>
    intro d0 d kv h
    simp only [buildLocalesDict, Except.ok.injEq] at h
    subst h
    simp
  | cons r rs ih =>
    intro d0 d kv h
    simp only [buildLocalesDict] at h
    cases hk : dictGet? r keyHdr with
    | none => rw [hk] at h; exact absurd h (by simp)
    | some k0 =>
      rw [hk] at h
      have hrec := ih (dictSet d0 k0 r) d kv h
      rw [hrec]
      rw [List.reverse_cons, List.find?_append]
      cases hf : rs.reverse.find? (fun r => decide (dictGet? r keyHdr = some kv)) with
      | some r' => simp
      | none =>
        simp only [Option.none_orElse]
        by_cases hkv : k0 = kv
        · subst hkv
          simp [List.find?, hk, dictGet?_dictSet_self]
        · have : (decide (dictGet? r keyHdr = some kv)) = false := by
            simp [hk, hkv]
          simp [List.find?, this, dictGet?_dictSet_ne d0 k0 kv r hkv]

/-- C10: when two or more data rows of the Labels sheet carry the same value
in their `key` column, the pre-indexed locale dictionary maps that key to the
last such row in sheet order (earlier duplicate rows are shadowed and
contribute nothing): looking up any key cell in the built dictionary finds
the last matching zipped row. -/
theorem C10_last_duplicate_wins (sh : LabelsSheet) (d : LocDict) (kv : Cell)
    (hok : getLocalesInner (some sh) = Except.ok d) :
    dictGet? d kv =
      (sh.dataRows.map (zipDict sh.headerRow)).reverse.find?
        (fun r => decide (dictGet? r keyHdr = some kv)) := by
  simp only [getLocalesInner] at hok
  by_cases hrows : 1 + sh.dataRows.length ≤ 1
  · rw [if_pos hrows] at hok
    exact absurd hok (by simp)
  · rw [if_neg hrows] at hok
    simp only [get_headers] at hok
    by_cases hkey : keyHdr ∈ sh.headerRow
    · rw [if_pos hkey] at hok
      have := buildLocalesDict_lookup (sh.dataRows.map (zipDict sh.headerRow)) [] d kv hok
      rw [this]
      cases hf : (sh.dataRows.map (zipDict sh.headerRow)).reverse.find?
          (fun r => decide (dictGet? r keyHdr = some kv)) with
      | some r => simp
      | none => simp [dictGet?]
    · rw [if_neg hkey] at hok
      exact absurd hok (by simp)

def frHdr : Str := "fr".toList

def w10ValOne : Str := "un".toList

def w10ValTwo : Str := "deux".toList

def w10Sheet : LabelsSheet :=
  { headerRow := [keyHdr, frHdr],
    dataRows := [[some (CellVal.str qnX), some (CellVal.str w10ValOne)],
      [some (CellVal.str qnX), some (CellVal.str w10ValTwo)]] }

def w10Dict : LocDict :=
  [(some (CellVal.str qnX),
    [(keyHdr, some (CellVal.str qnX)), (frHdr, some (CellVal.str w10ValTwo))])]

theorem C10_last_duplicate_wins_witness :
    getLocalesInner (some w10Sheet) = Except.ok w10Dict ∧
    dictGet? w10Dict (some (CellVal.str qnX)) =
      (w10Sheet.dataRows.map (zipDict w10Sheet.headerRow)).reverse.find?
        (fun r => decide (dictGet? r keyHdr = some (some (CellVal.str qnX)))) :=
  ⟨by rfl, C10_last_duplicate_wins w10Sheet w10Dict (some (CellVal.str qnX)) (by rfl)⟩

/-! ## Claim C8 (which label columns are emitted) -/

def fStr : Str := "f".toList

def cx8Hdr : Str := "f_label".toList

def qnXLabel : Str := "X_label".toList

def cx8Val : Str := "Oui".toList

def cx8Row : LocRow := [(keyHdr, some (CellVal.str qnX)), (cx8Hdr, some (CellVal.str cx8Val))]

def cx8Res : TranslationData :=
  (FillLocalesTranslations.addTranslationsFromLocales (TranslationData.init rootStr) false
    sectS qnX cx8Row).2.1

/-- C8 evaluated at the failing input: the source's guard (line 252) skips a
column only when the part before the first underscore is longer than 2
characters, so the column `f_label`, whose language part `f` has 1 character
(not exactly 2), is emitted: the handler stores a translation under language
`f` with key `X_label`.  The inline comment (line 251, "If language part
does not have 2 characters, the column should not be processed") and the
claim both say such a column must be skipped. -/
theorem C8_code_bug :
    (pySplit1 underscoreChar cx8Hdr).1 = fStr ∧
    fStr.length = 1 ∧
    dictGet? ((dictGet? cx8Res.translations fStr).getD []) sectS =
      some { modified := true, data := [(qnXLabel, stringToYaml cx8Val)],
             file := mkFilePath rootStr fStr sectS } := by
  refine ⟨by decide, by decide, ?_⟩
  simp [cx8Res, FillLocalesTranslations.addTranslationsFromLocales, locLoop, rowKeepMarkdown,
    TranslationData.addTranslation, TranslationData.init, TranslationLangNs.addTranslation,
    TranslationLangNs.init, cx8Row, cx8Hdr, cx8Val, qnX, qnXLabel, sectS, rootStr, fStr,
    keyHdr, namespaceHdr, mdHdr, emptyStr, oneStr, underscoreChar, underscoreStr,
    pySplit1, dictGet?, dictSet, containsKey, transformValue, ValueReplacer.replace,
    ValueReplacer.replaceStartEnd, pyReplaceAll, pyReplAllAux, pyIn, isPre, pyCount,
    pyCountAux, stringToYaml, nomTok, nicknameRepl, ValueReplacer.newlineTok,
    ValueReplacer.brTag, ValueReplacer.boldTok, ValueReplacer.obliqueTok,
    ValueReplacer.greenTok, ValueReplacer.redTok, mkFilePath, sepStr, ymlExt]

/-! ## Claim C4 (merge-failure handling differs between the two strategies) -/

def frAHdr : Str := "fr_a".toList

def qnXa : Str := "X_a".toList

def cx4Labels : LabelsSheet :=
  { headerRow := [keyHdr, frAHdr],
    dataRows := [[some (CellVal.str qnX), some (CellVal.num 42)]] }

def cx4Widget : WidgetRow :=
  { question_name := qnX, sect := sectS, path := pathP, fr := none, en := none }

/-- C4 counterexample: a merge failure in the locale-override strategy does
not abort the run.  The label row for `X` carries a numeric `fr_a` cell, so
the registry add raises `AttributeError` and logs it with its full
(language, section, path) context; but `__addTranslationsFromLocales`
catches it (printing its own line), and the whole run completes with
`Except.ok` -- the exception is not re-raised to the caller. -/
theorem C4_counterexample :
    (generate_libelles [] [cx4Widget] (some cx4Labels) rootStr false).1 =
      [ctxLogMsg frLang sectS qnXa attrErrMsg, locSwallowMsg attrErrMsg] ∧
    (generate_libelles [] [cx4Widget] (some cx4Labels) rootStr false).2 = Except.ok [] := by
  constructor <;> rfl

/-- C4 (amended): any exception raised while adding a translation is logged
by the registry with its (language, section, path) context and re-raised
unchanged.  In the locale-override strategy the per-row handler catches it,
so a spreadsheet whose every row uses the locale strategy can never abort
the row loop -- locale-strategy merge failures are swallowed after logging,
not propagated.  In the default strategy the exception propagates and
aborts the run: a raising row makes the whole row loop raise (the remaining
rows are not processed), and the orchestrator logs the exception at each
outer handler and ends with `Except.error` instead of saving. -/
theorem C4_error_handling_amended :
    (∀ (td : TranslationData) (lang sect path : Str) (v : CellVal) (ow km : Bool) (e : Str),
      (TranslationData.addTranslation td lang sect path v ow km).2.2 = some e →
      (TranslationData.addTranslation td lang sect path v ow km).1 =
        [ctxLogMsg lang sect path e]) ∧
    (∀ (locDict : LocDict) (ow : Bool) (td : TranslationData) (ws : List WidgetRow),
      (∀ r ∈ ws, containsKey locDict (some (CellVal.str r.question_name)) = true) →
      (excelLoop locDict ow td ws).2.2 = none) ∧
    (∀ (locDict : LocDict) (ow : Bool) (td : TranslationData) (r : WidgetRow)
        (rs : List WidgetRow) (e : Str),
      (excelRow locDict ow td r).2.2 = some e →
      (excelLoop locDict ow td (r :: rs)).2.2 = some e) ∧
    (∀ (fs : FS) (widgets : List WidgetRow) (labels : Option LabelsSheet) (root : Str)
        (ow : Bool) (e : Str),
      (excelLoop (FillLocalesTranslations.getTranslationsFromLocaleSheet labels) ow
        (FillLocalesTranslations.loadCurrentTranslations root fs) widgets).2.2 = some e →
      (generate_libelles fs widgets labels root ow).2 = Except.error e ∧
      ∃ pre, (generate_libelles fs widgets labels root ow).1 =
        pre ++ [excelExcMsg e, genErrMsg e]) := by
  refine ⟨?_, ?_, ?_, ?_⟩
  · intro td lang sect path v ow km e hsome
    simp only [TranslationData.addTranslation] at hsome ⊢
    cases hadd : TranslationLangNs.addTranslation
        ((dictGet? ((dictGet? td.translations lang).getD []) sect).getD
          (TranslationLangNs.init
            (mkFilePath td.libelles_output_folder_path lang sect)))
        path v ow km with
    | ok st2 =>
      rw [hadd] at hsome
      simp at hsome
    | error e2 =>
      rw [hadd] at hsome
      simp only [Option.some.injEq] at hsome
      subst hsome
      rfl
  · intro locDict ow td ws
    induction ws generalizing td with
    | nil => intro _; rfl
    | cons r rs ih =>
      intro hall
      have hr : containsKey locDict (some (CellVal.str r.question_name)) = true :=
        hall r (List.mem_cons_self r rs)
      have hrest : ∀ r' ∈ rs, containsKey locDict (some (CellVal.str r'.question_name)) = true :=
        fun r' hm => hall r' (List.mem_cons_of_mem r hm)
      simp only [excelLoop, excelRow, hr, if_true]
      exact ih _ hrest
  · intro locDict ow td r rs e hrow
    obtain ⟨l1, td1, e1, hR⟩ : ∃ a b c, excelRow locDict ow td r = (a, b, c) :=
      ⟨_, _, _, rfl⟩
    rw [hR] at hrow
    dsimp only at hrow
    subst hrow
    simp only [excelLoop, hR]
  · intro fs widgets labels root ow e hloop
    obtain ⟨L, td1, e1, hL⟩ :
        ∃ a b c, excelLoop (FillLocalesTranslations.getTranslationsFromLocaleSheet labels) ow
          (FillLocalesTranslations.loadCurrentTranslations root fs) widgets = (a, b, c) :=
      ⟨_, _, _, rfl⟩
    rw [hL] at hloop
    dsimp only at hloop
    subst hloop
    have hg : generate_libelles fs widgets labels root ow =
        ((L ++ [excelExcMsg e]) ++ [genErrMsg e], Except.error e) := by
      simp only [generate_libelles, FillLocalesTranslations.addTranslationsFromExcel, hL]
    rw [hg]
    refine ⟨rfl, L, ?_⟩
    simp

def w4Td : TranslationData := TranslationData.init rootStr

/-- A Widgets row whose question name is keyed in no locale dictionary and
whose French cell is numeric: its default-strategy add raises. -/
def cx4W2 : WidgetRow :=
  { question_name := qnX, sect := sectS, path := pathP, fr := some (CellVal.num 42),
    en := none }

theorem C4_error_handling_amended_witness :
    ((TranslationData.addTranslation w4Td frLang sectS qnXa (CellVal.num 42) false false).2.2 =
      some attrErrMsg ∧
    (TranslationData.addTranslation w4Td frLang sectS qnXa (CellVal.num 42) false false).1 =
      [ctxLogMsg frLang sectS qnXa attrErrMsg]) ∧
    ((∀ r ∈ [cx4Widget],
      containsKey (FillLocalesTranslations.getTranslationsFromLocaleSheet (some cx4Labels))
        (some (CellVal.str r.question_name)) = true) ∧
    (excelLoop (FillLocalesTranslations.getTranslationsFromLocaleSheet (some cx4Labels))
      false w4Td [cx4Widget]).2.2 = none) ∧
    ((excelRow [] false w4Td cx4W2).2.2 = some attrErrMsg ∧
    (excelLoop [] false w4Td [cx4W2, cx4Widget]).2.2 = some attrErrMsg) ∧
    ((excelLoop (FillLocalesTranslations.getTranslationsFromLocaleSheet none) false
        (FillLocalesTranslations.loadCurrentTranslations rootStr []) [cx4W2]).2.2 =
      some attrErrMsg ∧
    ((generate_libelles [] [cx4W2] none rootStr false).2 = Except.error attrErrMsg ∧
      ∃ pre, (generate_libelles [] [cx4W2] none rootStr false).1 =
        pre ++ [excelExcMsg attrErrMsg, genErrMsg attrErrMsg])) := by
  have hall : ∀ r ∈ [cx4Widget],
      containsKey (FillLocalesTranslations.getTranslationsFromLocaleSheet (some cx4Labels))
        (some (CellVal.str r.question_name)) = true := by
    intro r hm
    simp only [List.mem_singleton] at hm
    subst hm
    rfl
  refine ⟨⟨rfl, C4_error_handling_amended.1 w4Td frLang sectS qnXa (CellVal.num 42)
      false false attrErrMsg rfl⟩,
    ⟨hall, C4_error_handling_amended.2.1 _ false w4Td _ hall⟩,
    ⟨rfl, C4_error_handling_amended.2.2.1 [] false w4Td cx4W2 [cx4Widget] attrErrMsg rfl⟩,
    ⟨rfl, C4_error_handling_amended.2.2.2 [] [cx4W2] none rootStr false attrErrMsg rfl⟩⟩

/-! ## Claim C1: registry lookup helpers -/

/-- The store registered under (lang, section), if any. -/
def tdStore? (td : TranslationData) (lang sect : Str) : Option TranslationLangNs :=
  (dictGet? td.translations lang).bind (fun secs => dictGet? secs sect)

/-- The (lang, section) store exists and already holds `path`. -/
def tdHasKey (td : TranslationData) (lang sect path : Str) : Prop :=
  ∃ st, tdStore? td lang sect = some st ∧ containsKey st.data path = true

/-- Every store's dirty bit is clear. -/
def tdAllClean (td : TranslationData) : Bool :=
  td.translations.all (fun ls => ls.2.all (fun ss => !ss.2.modified))

/-- Both association-list key levels of the registry are duplicate-free (true
of every registry the code builds, since CPython dicts cannot hold duplicate
keys). -/
def tdWF (td : TranslationData) : Prop :=
  (keysOf td.translations).Nodup ∧ ∀ ls ∈ td.translations, (keysOf ls.2).Nodup

theorem containsKey_eq_false_iff {α β : Type} [DecidableEq α] (d : List (α × β)) (k : α) :
    containsKey d k = false ↔ k ∉ keysOf d := by
  induction d with
  | nil => simp [containsKey]
  | cons kv d ih =>
    by_cases hk : kv.1 = k
    · simp [containsKey, hk]
    · simp [containsKey, hk, ih, Ne.symm hk]

theorem dictGet?_eq_none_of_not_mem {α β : Type} [DecidableEq α] {d : List (α × β)} {k : α}
    (h : k ∉ keysOf d) : dictGet? d k = none := by
  induction d with
  | nil => rfl
  | cons kv d ih =>
    simp only [keysOf_cons, List.mem_cons] at h
    push_neg at h
    simp [dictGet?, Ne.symm h.1, ih h.2]

theorem mem_dictSet {α β : Type} [DecidableEq α] {d : List (α × β)} {k : α} {v : β}
    {x : α × β} (h : x ∈ dictSet d k v) : x = (k, v) ∨ x ∈ d := by
  induction d with
  | nil => simpa [dictSet] using h
  | cons kv d ih =>
    by_cases hk : kv.1 = k
    · simp only [dictSet, if_pos hk, List.mem_cons] at h
      rcases h with h | h
      · exact Or.inl h
      · exact Or.inr (List.mem_cons_of_mem kv h)
    · simp only [dictSet, if_neg hk, List.mem_cons] at h
      rcases h with h | h
      · exact Or.inr (by simp [h])
      · rcases ih h with h2 | h2
        · exact Or.inl h2
        · exact Or.inr (List.mem_cons_of_mem kv h2)

theorem dictSet_keys_nodup {α β : Type} [DecidableEq α] (d : List (α × β)) (k : α) (v : β)
    (h : (keysOf d).Nodup) : (keysOf (dictSet d k v)).Nodup := by
  cases hc : containsKey d k
  · rw [keysOf_dictSet_of_not_contains d k v hc]
    have hk : k ∉ keysOf d := (containsKey_eq_false_iff d k).mp hc
    simp [List.nodup_append, h, hk]
  · rw [keysOf_dictSet_of_contains d k v hc]
    exact h

theorem addTranslations_store_self (td : TranslationData) (lang sect : Str)
    (tr : TranslationLangNs) : tdStore? (td.addTranslations lang sect tr) lang sect = some tr := by
  simp [TranslationData.addTranslations, tdStore?, dictGet?_dictSet_self]

theorem addTranslations_store_other (td : TranslationData) (lang sect l s : Str)
    (tr : TranslationLangNs) (h : ¬(lang = l ∧ sect = s)) :
    tdStore? (td.addTranslations lang sect tr) l s = tdStore? td l s := by
  simp only [TranslationData.addTranslations, tdStore?]
  by_cases hl : lang = l
  · subst hl
    have hs : sect ≠ s := fun hs => h ⟨rfl, hs⟩
    rw [dictGet?_dictSet_self]
    cases hg : dictGet? td.translations lang with
    | none =>
      simp only [hg, Option.getD_none, Option.some_bind, Option.none_bind]
      rw [dictGet?_dictSet_ne ([] : List (Str × TranslationLangNs)) sect s tr hs]
      rfl
    | some secs =>
      simp only [hg, Option.getD_some, Option.some_bind]
      rw [dictGet?_dictSet_ne secs sect s tr hs]
  · rw [dictGet?_dictSet_ne _ lang l _ hl]

/-- The registry state produced by `TranslationData.addTranslation` in both
the success and the exception branch. -/
theorem registry_add_translations (td : TranslationData) (lang sect path : Str) (v : CellVal)
    (ow km : Bool) :
    (TranslationData.addTranslation td lang sect path v ow km).2.1.translations =
      dictSet td.translations lang
        (dictSet ((dictGet? td.translations lang).getD []) sect
          (match ((dictGet? ((dictGet? td.translations lang).getD []) sect).getD
              (TranslationLangNs.init
                (mkFilePath td.libelles_output_folder_path lang sect))).addTranslation
              path v ow km with
            | Except.ok st2 => st2
            | Except.error _ =>
              (dictGet? ((dictGet? td.translations lang).getD []) sect).getD
                (TranslationLangNs.init
                  (mkFilePath td.libelles_output_folder_path lang sect)))) ∧
    (TranslationData.addTranslation td lang sect path v ow km).2.1.libelles_output_folder_path =
      td.libelles_output_folder_path := by
  simp only [TranslationData.addTranslation]
  cases ((dictGet? ((dictGet? td.translations lang).getD []) sect).getD
      (TranslationLangNs.init
        (mkFilePath td.libelles_output_folder_path lang sect))).addTranslation
      path v ow km with
  | ok st2 => exact ⟨rfl, rfl⟩
  | error e => exact ⟨rfl, rfl⟩

/-- A blocked add (overwrite false, path already present) leaves the registry
exactly unchanged. -/
theorem registry_add_blocked (td : TranslationData) (lang sect path : Str) (v : CellVal)
    (km : Bool) (st : TranslationLangNs) (hst : tdStore? td lang sect = some st)
    (hc : containsKey st.data path = true) :
    TranslationData.addTranslation td lang sect path v false km = ([], td, none) := by
  simp only [tdStore?] at hst
  cases hg : dictGet? td.translations lang with
  | none => rw [hg] at hst; simp at hst
  | some secs =>
    rw [hg] at hst
    simp only [Option.some_bind] at hst
    simp only [TranslationData.addTranslation, hg, Option.getD_some, hst,
      addTranslation_blocked st path v km hc]
    rw [dictSet_eq_self hst, dictSet_eq_self hg]

theorem dictGet?_mem {α β : Type} [DecidableEq α] {d : List (α × β)} {k : α} {v : β}
    (h : dictGet? d k = some v) : (k, v) ∈ d := by
  induction d with
  | nil => simp [dictGet?] at h
  | cons kv d ih =>
    by_cases hk : kv.1 = k
    · simp only [dictGet?, if_pos hk, Option.some.injEq] at h
      subst h
      subst hk
      simp
    · simp only [dictGet?, if_neg hk] at h
      exact List.mem_cons_of_mem kv (ih h)

theorem addTranslation_ok_contains (st : TranslationLangNs) (p : Str) (v : CellVal) (ow km : Bool)
    (st2 : TranslationLangNs) (h : st.addTranslation p v ow km = Except.ok st2) :
    containsKey st2.data p = true := by
  by_cases hgate : (!ow && containsKey st.data p) = true
  · have hc : containsKey st.data p = true := by
      cases hcc : containsKey st.data p
      · rw [hcc] at hgate
        simp at hgate
      · rfl
    simp only [TranslationLangNs.addTranslation, hgate, if_true, Except.ok.injEq] at h
    subst h
    exact hc
  · have hg : (!ow && containsKey st.data p) = false := by
      cases hx : (!ow && containsKey st.data p)
      · rfl
      · exact absurd hx hgate
    cases v with
    | num n =>
      rw [addTranslation_num_error st p n ow km hg] at h
      exact absurd h (by simp)
    | str s =>
      rw [addTranslation_stored st p s ow km hg] at h
      rw [Except.ok.injEq] at h
      subst h
      exact containsKey_dictSet_self _ _ _

theorem addTranslation_contains_mono (st : TranslationLangNs) (p : Str) (v : CellVal)
    (ow km : Bool) (st2 : TranslationLangNs) (h : st.addTranslation p v ow km = Except.ok st2)
    (q : Str) (hq : containsKey st.data q = true) : containsKey st2.data q = true := by
  by_cases hgate : (!ow && containsKey st.data p) = true
  · simp only [TranslationLangNs.addTranslation, hgate, if_true, Except.ok.injEq] at h
    subst h
    exact hq
  · have hg : (!ow && containsKey st.data p) = false := by
      cases hx : (!ow && containsKey st.data p)
      · rfl
      · exact absurd hx hgate
    cases v with
    | num n =>
      rw [addTranslation_num_error st p n ow km hg] at h
      exact absurd h (by simp)
    | str s =>
      rw [addTranslation_stored st p s ow km hg] at h
      rw [Except.ok.injEq] at h
      subst h
      exact containsKey_dictSet_of _ _ _ _ hq

/-- A successful `addTranslation` that leaves the dirty bit clear must have
been blocked by the overwrite gate: the store is unchanged and already holds
the path. -/
theorem addTranslation_ok_clean (st : TranslationLangNs) (p : Str) (v : CellVal) (ow km : Bool)
    (st2 : TranslationLangNs) (h : st.addTranslation p v ow km = Except.ok st2)
    (hm : st2.modified = false) : st2 = st ∧ containsKey st.data p = true := by
  by_cases hgate : (!ow && containsKey st.data p) = true
  · have hc : containsKey st.data p = true := by
      cases hcc : containsKey st.data p
      · rw [hcc] at hgate
        simp at hgate
      · rfl
    simp only [TranslationLangNs.addTranslation, hgate, if_true, Except.ok.injEq] at h
    exact ⟨h.symm, hc⟩
  · have hg : (!ow && containsKey st.data p) = false := by
      cases hx : (!ow && containsKey st.data p)
      · rfl
      · exact absurd hx hgate
    cases v with
    | num n =>
      rw [addTranslation_num_error st p n ow km hg] at h
      exact absurd h (by simp)
    | str s =>
      rw [addTranslation_stored st p s ow km hg] at h
      rw [Except.ok.injEq] at h
      rw [← h] at hm
      simp at hm

/-- Where each (lang, section) store ends up after a registry add. -/
theorem registry_add_store_lookup (td : TranslationData) (lang sect path : Str) (v : CellVal)
    (ow km : Bool) (l s : Str) :
    tdStore? (TranslationData.addTranslation td lang sect path v ow km).2.1 l s =
      if lang = l ∧ sect = s then
        some (match ((dictGet? ((dictGet? td.translations lang).getD []) sect).getD
            (TranslationLangNs.init
              (mkFilePath td.libelles_output_folder_path lang sect))).addTranslation
            path v ow km with
          | Except.ok st2 => st2
          | Except.error _ =>
            (dictGet? ((dictGet? td.translations lang).getD []) sect).getD
              (TranslationLangNs.init (mkFilePath td.libelles_output_folder_path lang sect)))
      else tdStore? td l s := by
  obtain ⟨htr, _⟩ := registry_add_translations td lang sect path v ow km
  by_cases hl : lang = l
  · subst hl
    by_cases hsect : sect = s
    · subst hsect
      simp only [tdStore?, htr, dictGet?_dictSet_self, Option.some_bind, and_self, if_true]
    · simp only [tdStore?, htr, dictGet?_dictSet_self, Option.some_bind, hsect, and_false,
        if_false]
      rw [dictGet?_dictSet_ne _ sect s _ hsect]
      cases hg : dictGet? td.translations lang with
      | none => simp [dictGet?]
      | some secs => simp
  · simp only [tdStore?, htr]
    rw [dictGet?_dictSet_ne _ lang l _ hl]
    simp [hl]

theorem tdStore?_getD_form (td : TranslationData) (lang sect : Str) (st : TranslationLangNs)
    (h : tdStore? td lang sect = some st) :
    (dictGet? ((dictGet? td.translations lang).getD []) sect).getD
      (TranslationLangNs.init (mkFilePath td.libelles_output_folder_path lang sect)) = st := by
  simp only [tdStore?] at h
  cases hg : dictGet? td.translations lang with
  | none =>
    rw [hg] at h
    simp at h
  | some secs =>
    rw [hg] at h
    simp only [Option.some_bind] at h
    simp [h]

theorem tdStore?_of_getD_contains (td : TranslationData) (lang sect p : Str)
    (hc : containsKey ((dictGet? ((dictGet? td.translations lang).getD []) sect).getD
      (TranslationLangNs.init
        (mkFilePath td.libelles_output_folder_path lang sect))).data p = true) :
    tdStore? td lang sect =
      some ((dictGet? ((dictGet? td.translations lang).getD []) sect).getD
        (TranslationLangNs.init (mkFilePath td.libelles_output_folder_path lang sect))) := by
  cases hg : dictGet? td.translations lang with
  | none =>
    rw [hg] at hc
    simp only [Option.getD_none, dictGet?, Option.getD_none] at hc
    simp [TranslationLangNs.init, containsKey] at hc
  | some secs =>
    rw [hg] at hc
    simp only [Option.getD_some] at hc
    cases hs : dictGet? secs sect with
    | none =>
      rw [hs] at hc
      simp only [Option.getD_none] at hc
      simp [TranslationLangNs.init, containsKey] at hc
    | some stY =>
      rw [hs] at hc
      simp [tdStore?, hg, hs]

theorem registry_add_hasKey_mono (td : TranslationData) (lang sect path : Str) (v : CellVal)
    (ow km : Bool) (l s p : Str) (h : tdHasKey td l s p) :
    tdHasKey (TranslationData.addTranslation td lang sect path v ow km).2.1 l s p := by
  obtain ⟨st, hst, hc⟩ := h
  rw [tdHasKey]
  rw [registry_add_store_lookup]
  by_cases hls : lang = l ∧ sect = s
  · obtain ⟨rfl, rfl⟩ := hls
    rw [if_pos ⟨rfl, rfl⟩]
    have h0 := tdStore?_getD_form td lang sect st hst
    rw [h0]
    cases hadd : st.addTranslation path v ow km with
    | ok st2 => exact ⟨st2, rfl, addTranslation_contains_mono st path v ow km st2 hadd p hc⟩
    | error e => exact ⟨st, rfl, hc⟩
  · rw [if_neg hls]
    exact ⟨st, hst, hc⟩

theorem registry_add_ok_hasKey (td : TranslationData) (lang sect path : Str) (v : CellVal)
    (ow km : Bool)
    (h : (TranslationData.addTranslation td lang sect path v ow km).2.2 = none) :
    tdHasKey (TranslationData.addTranslation td lang sect path v ow km).2.1 lang sect path := by
  rw [tdHasKey, registry_add_store_lookup, if_pos ⟨rfl, rfl⟩]
  simp only [TranslationData.addTranslation] at h
  cases hadd : ((dictGet? ((dictGet? td.translations lang).getD []) sect).getD
      (TranslationLangNs.init
        (mkFilePath td.libelles_output_folder_path lang sect))).addTranslation
      path v ow km with
  | error e =>
    rw [hadd] at h
    simp at h
  | ok st2 =>
    exact ⟨st2, rfl, addTranslation_ok_contains _ path v ow km st2 hadd⟩

theorem registry_add_clean_stable (td : TranslationData) (lang sect path : Str) (v : CellVal)
    (ow km : Bool) (l s : Str) (st' : TranslationLangNs)
    (h : (TranslationData.addTranslation td lang sect path v ow km).2.2 = none)
    (h2 : tdStore? (TranslationData.addTranslation td lang sect path v ow km).2.1 l s = some st')
    (hm : st'.modified = false) : tdStore? td l s = some st' := by
  rw [registry_add_store_lookup] at h2
  by_cases hls : lang = l ∧ sect = s
  · obtain ⟨rfl, rfl⟩ := hls
    rw [if_pos ⟨rfl, rfl⟩] at h2
    simp only [TranslationData.addTranslation] at h
    cases hadd : ((dictGet? ((dictGet? td.translations lang).getD []) sect).getD
        (TranslationLangNs.init
          (mkFilePath td.libelles_output_folder_path lang sect))).addTranslation
        path v ow km with
    | error e =>
      rw [hadd] at h
      simp at h
    | ok st2 =>
      rw [hadd] at h2
      simp only [Option.some.injEq] at h2
      obtain ⟨heq, hcont⟩ :=
        addTranslation_ok_clean _ path v ow km st2 hadd (by rw [h2]; exact hm)
      rw [← h2, heq]
      exact tdStore?_of_getD_contains td lang sect path hcont
  · rw [if_neg hls] at h2
    exact h2

theorem addTranslations_tdWF (td : TranslationData) (lang sect : Str) (tr : TranslationLangNs)
    (h : tdWF td) : tdWF (td.addTranslations lang sect tr) := by
  obtain ⟨h1, h2⟩ := h
  constructor
  · exact dictSet_keys_nodup _ _ _ h1
  · intro ls hls
    rcases mem_dictSet hls with heq | hmem
    · subst heq
      cases hg : dictGet? td.translations lang with
      | none => simp [hg, dictSet]
      | some secs =>
        simp only [hg, Option.getD_some]
        exact dictSet_keys_nodup _ _ _ (h2 (lang, secs) (dictGet?_mem hg))
    · exact h2 ls hmem

theorem registry_add_tdWF (td : TranslationData) (lang sect path : Str) (v : CellVal)
    (ow km : Bool) (h : tdWF td) :
    tdWF (TranslationData.addTranslation td lang sect path v ow km).2.1 := by
  obtain ⟨htr, _⟩ := registry_add_translations td lang sect path v ow km
  obtain ⟨h1, h2⟩ := h
  constructor
  · rw [htr]
    exact dictSet_keys_nodup _ _ _ h1
  · rw [htr]
    intro ls hls
    rcases mem_dictSet hls with heq | hmem
    · subst heq
      cases hg : dictGet? td.translations lang with
      | none => simp [hg, dictSet]
      | some secs =>
        simp only [hg, Option.getD_some]
        exact dictSet_keys_nodup _ _ _ (h2 (lang, secs) (dictGet?_mem hg))
    · exact h2 ls hmem


/-! ## Claim C1: the add tuples a run generates, and the two loop directions -/

/-- The (language, section, translation key) tuples one locale row generates,
mirroring exactly the skip logic of `locLoop` (the skip tests only inspect
the row, never the registry). -/
def rowTuples (sect question_name : Str) : LocRow → List (Str × Str × Str)
  | [] => []
  | (k, v) :: rest =>
    if k = namespaceHdr ∨ k = keyHdr ∨ k = mdHdr then rowTuples sect question_name rest
    else if v = none ∨ v = some (CellVal.str emptyStr) then rowTuples sect question_name rest
    else if (pySplit1 underscoreChar k).1.length > 2 then rowTuples sect question_name rest
    else
      ((pySplit1 underscoreChar k).1, sect,
        match (pySplit1 underscoreChar k).2 with
        | some suf => question_name ++ underscoreStr ++ suf
        | none => question_name) :: rowTuples sect question_name rest

/-- The tuples one Widgets row generates under a given locale dictionary. -/
def widgetTuples (locDict : LocDict) (r : WidgetRow) : List (Str × Str × Str) :=
  if containsKey locDict (some (CellVal.str r.question_name)) then
    rowTuples r.sect r.question_name
      ((dictGet? locDict (some (CellVal.str r.question_name))).getD [])
  else
    (if r.fr.isSome then [(frLang, r.sect, r.path)] else []) ++
      (if r.en.isSome then [(enLang, r.sect, r.path)] else [])

/-- All tuples a run over `ws` generates. -/
def tuplesOf (locDict : LocDict) (ws : List WidgetRow) : List (Str × Str × Str) :=
  (ws.map (widgetTuples locDict)).flatten

/-- Run-1 direction for one locale row: a row that printed nothing swallowed
no exception, only grew the registry, covered all its tuples, left every
clean store untouched, and preserved well-formedness. -/
theorem locLoop_clean_spec (ow km : Bool) (sect qn : Str) :
    ∀ (row : LocRow) (td td2 : TranslationData) (b : Bool),
      locLoop ow km sect qn td row = ([], td2, b) →
      b = false ∧
      (∀ l s p, tdHasKey td l s p → tdHasKey td2 l s p) ∧
      (∀ t ∈ rowTuples sect qn row, tdHasKey td2 t.1 t.2.1 t.2.2) ∧
      (∀ l s st, tdStore? td2 l s = some st → st.modified = false →
        tdStore? td l s = some st) ∧
      (tdWF td → tdWF td2) := by
  intro row
  induction row with
  | nil =>
    intro td td2 b h
    simp only [locLoop, Prod.mk.injEq] at h
    obtain ⟨-, htd, hb⟩ := h
    subst htd
    subst hb
    exact ⟨rfl, fun _ _ _ hk => hk, by simp [rowTuples], fun _ _ _ hst _ => hst,
      fun hw => hw⟩
  | cons kv rest ih =>
    intro td td2 b h
    obtain ⟨k, v⟩ := kv
    simp only [locLoop] at h
    simp only [rowTuples]
    by_cases hskip : (k = namespaceHdr ∨ k = keyHdr ∨ k = mdHdr)
    · rw [if_pos hskip] at h
      rw [if_pos hskip]
      exact ih td td2 b h
    · rw [if_neg hskip] at h
      rw [if_neg hskip]
      by_cases hval : (v = none ∨ v = some (CellVal.str emptyStr))
      · rw [if_pos hval] at h
        rw [if_pos hval]
        exact ih td td2 b h
      · rw [if_neg hval] at h
        rw [if_neg hval]
        by_cases hlen : (pySplit1 underscoreChar k).1.length > 2
        · rw [if_pos hlen] at h
          rw [if_pos hlen]
          exact ih td td2 b h
        · rw [if_neg hlen] at h
          rw [if_neg hlen]
          obtain ⟨logs, tdm, err, hR⟩ :
              ∃ a b2 c, TranslationData.addTranslation td (pySplit1 underscoreChar k).1 sect
                (match (pySplit1 underscoreChar k).2 with
                  | some suf => qn ++ underscoreStr ++ suf
                  | none => qn) (v.getD (CellVal.str emptyStr)) ow km = (a, b2, c) :=
            ⟨_, _, _, rfl⟩
          rw [hR] at h
          dsimp only at h
          cases err with
          | some e =>
            simp only [Prod.mk.injEq] at h
            exact absurd h.1 (by simp)
          | none =>
            obtain ⟨l2, td3, b3, hL⟩ :
                ∃ a b2 c, locLoop ow km sect qn tdm rest = (a, b2, c) := ⟨_, _, _, rfl⟩
            rw [hL] at h
            dsimp only at h
            simp only [Prod.mk.injEq] at h
            obtain ⟨hlogs, htd3, hb3⟩ := h
            rw [List.append_eq_nil] at hlogs
            have hres := ih tdm td3 b3 (by rw [hL, hlogs.2])
            have hnone : (TranslationData.addTranslation td (pySplit1 underscoreChar k).1 sect
                (match (pySplit1 underscoreChar k).2 with
                  | some suf => qn ++ underscoreStr ++ suf
                  | none => qn) (v.getD (CellVal.str emptyStr)) ow km).2.2 = none := by
              rw [hR]
            have htdm : (TranslationData.addTranslation td (pySplit1 underscoreChar k).1 sect
                (match (pySplit1 underscoreChar k).2 with
                  | some suf => qn ++ underscoreStr ++ suf
                  | none => qn) (v.getD (CellVal.str emptyStr)) ow km).2.1 = tdm := by
              rw [hR]
            subst htd3
            subst hb3
            refine ⟨hres.1, ?_, ?_, ?_, ?_⟩
            · intro l s p hk
              exact hres.2.1 l s p
                (htdm ▸ registry_add_hasKey_mono td _ sect _ _ ow km l s p hk)
            · intro t ht
              rcases List.mem_cons.mp ht with rfl | ht2
              · exact hres.2.1 _ _ _
                  (htdm ▸ registry_add_ok_hasKey td _ sect _ _ ow km hnone)
              · exact hres.2.2.1 t ht2
            · intro l s st hst hm
              have h2 := hres.2.2.2.1 l s st hst hm
              exact registry_add_clean_stable td _ sect _ _ ow km l s st hnone
                (htdm ▸ h2) hm
            · intro hw
              exact hres.2.2.2.2 (htdm ▸ registry_add_tdWF td _ sect _ _ ow km hw)

/-- A registry add that raises prints exactly its context line. -/
theorem registry_add_error_log (td : TranslationData) (lang sect path : Str) (v : CellVal)
    (ow km : Bool) (e : Str)
    (h : (TranslationData.addTranslation td lang sect path v ow km).2.2 = some e) :
    (TranslationData.addTranslation td lang sect path v ow km).1 =
      [ctxLogMsg lang sect path e] := by
  simp only [TranslationData.addTranslation] at h ⊢
  cases hadd : ((dictGet? ((dictGet? td.translations lang).getD []) sect).getD
      (TranslationLangNs.init
        (mkFilePath td.libelles_output_folder_path lang sect))).addTranslation
      path v ow km with
  | ok st2 =>
    rw [hadd] at h
    simp at h
  | error e2 =>
    rw [hadd] at h
    simp only [Option.some.injEq] at h
    subst h
    rfl

/-- Run-2 direction for one locale row: when every tuple the row generates is
already present, every add is blocked by the overwrite gate and the row is a
complete no-op (no print, no state change, no exception, no swallow). -/
theorem locLoop_all_blocked (km : Bool) (sect qn : Str) :
    ∀ (row : LocRow) (td : TranslationData),
      (∀ t ∈ rowTuples sect qn row, tdHasKey td t.1 t.2.1 t.2.2) →
      locLoop false km sect qn td row = ([], td, false) := by
  intro row
  induction row with
  | nil =>
    intro td _
    simp [locLoop]
  | cons kv rest ih =>
    intro td hall
    obtain ⟨k, v⟩ := kv
    simp only [locLoop]
    simp only [rowTuples] at hall
    by_cases hskip : (k = namespaceHdr ∨ k = keyHdr ∨ k = mdHdr)
    · rw [if_pos hskip] at hall ⊢
      exact ih td hall
    · rw [if_neg hskip] at hall ⊢
      by_cases hval : (v = none ∨ v = some (CellVal.str emptyStr))
      · rw [if_pos hval] at hall ⊢
        exact ih td hall
      · rw [if_neg hval] at hall ⊢
        by_cases hlen : (pySplit1 underscoreChar k).1.length > 2
        · rw [if_pos hlen] at hall ⊢
          exact ih td hall
        · rw [if_neg hlen] at hall ⊢
          have hhead := hall _ (List.mem_cons_self _ _)
          obtain ⟨st, hst, hc⟩ := hhead
          rw [registry_add_blocked td (pySplit1 underscoreChar k).1 sect
            (match (pySplit1 underscoreChar k).2 with
              | some suf => qn ++ underscoreStr ++ suf
              | none => qn) (v.getD (CellVal.str emptyStr)) km st hst hc]
          dsimp only
          rw [ih td (fun t ht => hall t (List.mem_cons_of_mem _ ht))]
          rfl

/-- A `defaultAdd` that succeeds without printing. -/
theorem defaultAdd_clean (td : TranslationData) (lang sect path : Str) (c : Cell) (ow : Bool)
    (tdm : TranslationData) (h : defaultAdd td lang sect path c ow = ([], tdm, none)) :
    (∀ l s p, tdHasKey td l s p → tdHasKey tdm l s p) ∧
    (c.isSome = true → tdHasKey tdm lang sect path) ∧
    (∀ l s st, tdStore? tdm l s = some st → st.modified = false → tdStore? td l s = some st) ∧
    (tdWF td → tdWF tdm) := by
  cases c with
  | none =>
    simp only [defaultAdd, Prod.mk.injEq] at h
    obtain ⟨-, htd, -⟩ := h
    subst htd
    exact ⟨fun _ _ _ hk => hk, by simp, fun _ _ _ hst _ => hst, fun hw => hw⟩
  | some v =>
    simp only [defaultAdd] at h
    have hnone : (TranslationData.addTranslation td lang sect path v ow false).2.2 = none := by
      rw [h]
    have htdm : (TranslationData.addTranslation td lang sect path v ow false).2.1 = tdm := by
      rw [h]
    refine ⟨?_, ?_, ?_, ?_⟩
    · intro l s p hk
      exact htdm ▸ registry_add_hasKey_mono td lang sect path v ow false l s p hk
    · intro _
      exact htdm ▸ registry_add_ok_hasKey td lang sect path v ow false hnone
    · intro l s st hst hm
      exact registry_add_clean_stable td lang sect path v ow false l s st hnone
        (htdm ▸ hst) hm
    · intro hw
      exact htdm ▸ registry_add_tdWF td lang sect path v ow false hw

/-- A `defaultAdd` whose target path is already present is a no-op under
overwrite=false. -/
theorem defaultAdd_blocked (td : TranslationData) (lang sect path : Str) (c : Cell)
    (h : c.isSome = true → tdHasKey td lang sect path) :
    defaultAdd td lang sect path c false = ([], td, none) := by
  cases c with
  | none => rfl
  | some v =>
    obtain ⟨st, hst, hc⟩ := h rfl
    simp only [defaultAdd]
    exact registry_add_blocked td lang sect path v false st hst hc

/-- A `defaultAdd` that raises prints something. -/
theorem defaultAdd_error_logs (td : TranslationData) (lang sect path : Str) (c : Cell)
    (ow : Bool) (l1 : List Str) (tdm : TranslationData) (e : Str)
    (h : defaultAdd td lang sect path c ow = (l1, tdm, some e)) : l1 ≠ [] := by
  cases c with
  | none =>
    simp only [defaultAdd, Prod.mk.injEq] at h
    exact absurd h.2.2 (by simp)
  | some v =>
    simp only [defaultAdd] at h
    have he : (TranslationData.addTranslation td lang sect path v ow false).2.2 = some e := by
      rw [h]
    have hl := registry_add_error_log td lang sect path v ow false e he
    rw [h] at hl
    dsimp only at hl
    rw [hl]
    simp

/-- Run-1 direction for one Widgets row that printed nothing and raised
nothing. -/
theorem excelRow_clean_spec (locDict : LocDict) (ow : Bool) (td : TranslationData)
    (r : WidgetRow) (tdm : TranslationData)
    (h : excelRow locDict ow td r = ([], tdm, none)) :
    (∀ l s p, tdHasKey td l s p → tdHasKey tdm l s p) ∧
    (∀ t ∈ widgetTuples locDict r, tdHasKey tdm t.1 t.2.1 t.2.2) ∧
    (∀ l s st, tdStore? tdm l s = some st → st.modified = false → tdStore? td l s = some st) ∧
    (tdWF td → tdWF tdm) := by
  simp only [excelRow, FillLocalesTranslations.addTranslationsFromLocales] at h
  simp only [widgetTuples]
  by_cases hloc : containsKey locDict (some (CellVal.str r.question_name)) = true
  · rw [if_pos hloc] at h
    rw [if_pos hloc]
    obtain ⟨l1, tdx, bx, hL⟩ :
        ∃ a b c, locLoop ow
          (rowKeepMarkdown ((dictGet? locDict (some (CellVal.str r.question_name))).getD []))
          r.sect r.question_name td
          ((dictGet? locDict (some (CellVal.str r.question_name))).getD []) = (a, b, c) :=
      ⟨_, _, _, rfl⟩
    rw [hL] at h
    dsimp only at h
    simp only [Prod.mk.injEq] at h
    obtain ⟨hl1, htdx, -⟩ := h
    rw [htdx, hl1] at hL
    have hspec := locLoop_clean_spec ow
      (rowKeepMarkdown ((dictGet? locDict (some (CellVal.str r.question_name))).getD []))
      r.sect r.question_name
      ((dictGet? locDict (some (CellVal.str r.question_name))).getD []) td tdm bx hL
    exact ⟨hspec.2.1, hspec.2.2.1, hspec.2.2.2.1, hspec.2.2.2.2⟩
  · rw [if_neg hloc] at h
    rw [if_neg hloc]
    obtain ⟨l1, td1, e1, hR1⟩ :
        ∃ a b c, defaultAdd td frLang r.sect r.path r.fr ow = (a, b, c) := ⟨_, _, _, rfl⟩
    rw [hR1] at h
    dsimp only at h
    cases e1 with
    | some e2 =>
      simp only [Prod.mk.injEq] at h
      exact absurd h.2.2 (by simp)
    | none =>
      obtain ⟨l2, td2x, e2, hR2⟩ :
          ∃ a b c, defaultAdd td1 enLang r.sect r.path r.en ow = (a, b, c) := ⟨_, _, _, rfl⟩
      rw [hR2] at h
      dsimp only at h
      simp only [Prod.mk.injEq] at h
      obtain ⟨hl12, htd2, he2⟩ := h
      rw [List.append_eq_nil] at hl12
      rw [htd2, he2, hl12.2] at hR2
      have dc1 := defaultAdd_clean td frLang r.sect r.path r.fr ow td1
        (by rw [hR1, hl12.1])
      have dc2 := defaultAdd_clean td1 enLang r.sect r.path r.en ow tdm hR2
      refine ⟨fun l s p hk => dc2.1 l s p (dc1.1 l s p hk), ?_, ?_, fun hw => dc2.2.2.2 (dc1.2.2.2 hw)⟩
      · intro t ht
        rcases List.mem_append.mp ht with ht1 | ht2
        · by_cases hfr : r.fr.isSome = true
          · rw [if_pos hfr] at ht1
            simp only [List.mem_singleton] at ht1
            subst ht1
            exact dc2.1 _ _ _ (dc1.2.1 hfr)
          · rw [if_neg hfr] at ht1
            simp at ht1
        · by_cases hen : r.en.isSome = true
          · rw [if_pos hen] at ht2
            simp only [List.mem_singleton] at ht2
            subst ht2
            exact dc2.2.1 hen
          · rw [if_neg hen] at ht2
            simp at ht2
      · intro l s st hst hm
        exact dc1.2.2.1 l s st (dc2.2.2.1 l s st hst hm) hm

/-- A Widgets row whose processing raised an exception printed something. -/
theorem excelRow_error_logs (locDict : LocDict) (ow : Bool) (td : TranslationData)
    (r : WidgetRow) (l1 : List Str) (tdm : TranslationData) (e : Str)
    (h : excelRow locDict ow td r = (l1, tdm, some e)) : l1 ≠ [] := by
  simp only [excelRow, FillLocalesTranslations.addTranslationsFromLocales] at h
  by_cases hloc : containsKey locDict (some (CellVal.str r.question_name)) = true
  · rw [if_pos hloc] at h
    obtain ⟨lx, tdx, bx, hL⟩ :
        ∃ a b c, locLoop ow
          (rowKeepMarkdown ((dictGet? locDict (some (CellVal.str r.question_name))).getD []))
          r.sect r.question_name td
          ((dictGet? locDict (some (CellVal.str r.question_name))).getD []) = (a, b, c) :=
      ⟨_, _, _, rfl⟩
    rw [hL] at h
    dsimp only at h
    simp only [Prod.mk.injEq] at h
    exact absurd h.2.2 (by simp)
  · rw [if_neg hloc] at h
    obtain ⟨lx, td1, e1, hR1⟩ :
        ∃ a b c, defaultAdd td frLang r.sect r.path r.fr ow = (a, b, c) := ⟨_, _, _, rfl⟩
    rw [hR1] at h
    dsimp only at h
    cases e1 with
    | some e2 =>
      simp only [Prod.mk.injEq] at h
      obtain ⟨hl, -, -⟩ := h
      subst hl
      exact defaultAdd_error_logs td frLang r.sect r.path r.fr ow lx td1 e2 hR1
    | none =>
      obtain ⟨l2, td2x, e2, hR2⟩ :
          ∃ a b c, defaultAdd td1 enLang r.sect r.path r.en ow = (a, b, c) := ⟨_, _, _, rfl⟩
      rw [hR2] at h
      dsimp only at h
      simp only [Prod.mk.injEq] at h
      obtain ⟨hl, -, he2⟩ := h
      subst hl
      have hne : l2 ≠ [] :=
        defaultAdd_error_logs td1 enLang r.sect r.path r.en ow l2 td2x e
          (by rw [hR2, he2])
      intro hcon
      rw [List.append_eq_nil] at hcon
      exact hne hcon.2

/-- Run-1 direction for the whole Widgets loop. -/
theorem excelLoop_clean_spec (locDict : LocDict) (ow : Bool) :
    ∀ (ws : List WidgetRow) (td td2 : TranslationData) (err : Option Str),
      excelLoop locDict ow td ws = ([], td2, err) →
      err = none ∧
      (∀ l s p, tdHasKey td l s p → tdHasKey td2 l s p) ∧
      (∀ t ∈ tuplesOf locDict ws, tdHasKey td2 t.1 t.2.1 t.2.2) ∧
      (∀ l s st, tdStore? td2 l s = some st → st.modified = false →
        tdStore? td l s = some st) ∧
      (tdWF td → tdWF td2) := by
  intro ws
  induction ws with
  | nil =>
    intro td td2 err h
    simp only [excelLoop, Prod.mk.injEq] at h
    obtain ⟨-, htd, herr⟩ := h
    subst htd
    subst herr
    exact ⟨rfl, fun _ _ _ hk => hk, by simp [tuplesOf], fun _ _ _ hst _ => hst, fun hw => hw⟩
  | cons r rs ih =>
    intro td td2 err h
    simp only [excelLoop] at h
    obtain ⟨l1, tdm, e1, hRow⟩ :
        ∃ a b c, excelRow locDict ow td r = (a, b, c) := ⟨_, _, _, rfl⟩
    rw [hRow] at h
    dsimp only at h
    cases e1 with
    | some e2 =>
      simp only [Prod.mk.injEq] at h
      exact absurd h.1 (excelRow_error_logs locDict ow td r l1 tdm e2 hRow)
    | none =>
      obtain ⟨l2, td3, e3, hL⟩ :
          ∃ a b c, excelLoop locDict ow tdm rs = (a, b, c) := ⟨_, _, _, rfl⟩
      rw [hL] at h
      dsimp only at h
      simp only [Prod.mk.injEq] at h
      obtain ⟨hl12, htd3, he3⟩ := h
      rw [List.append_eq_nil] at hl12
      rw [htd3, he3, hl12.2] at hL
      have hrow := excelRow_clean_spec locDict ow td r tdm (by rw [hRow, hl12.1])
      have hres := ih tdm td2 err hL
      refine ⟨hres.1, fun l s p hk => hres.2.1 l s p (hrow.1 l s p hk), ?_, ?_, ?_⟩
      · intro t ht
        simp only [tuplesOf, List.map_cons, List.flatten_cons, List.mem_append] at ht
        rcases ht with ht1 | ht2
        · exact hres.2.1 _ _ _ (hrow.2.1 t ht1)
        · exact hres.2.2.1 t (by simpa [tuplesOf] using ht2)
      · intro l s st hst hm
        exact hrow.2.2.1 l s st (hres.2.2.2.1 l s st hst hm) hm
      · intro hw
        exact hres.2.2.2.2 (hrow.2.2.2 hw)

/-- Run-2 direction: when every tuple the whole run generates is already
present, the entire Widgets loop is a no-op. -/
theorem excelLoop_all_blocked (locDict : LocDict) :
    ∀ (ws : List WidgetRow) (td : TranslationData),
      (∀ t ∈ tuplesOf locDict ws, tdHasKey td t.1 t.2.1 t.2.2) →
      excelLoop locDict false td ws = ([], td, none) := by
  intro ws
  induction ws with
  | nil =>
    intro td _
    rfl
  | cons r rs ih =>
    intro td hall
    have hrow : excelRow locDict false td r = ([], td, none) := by
      simp only [excelRow, FillLocalesTranslations.addTranslationsFromLocales]
      by_cases hloc : containsKey locDict (some (CellVal.str r.question_name)) = true
      · rw [if_pos hloc]
        rw [locLoop_all_blocked
          (rowKeepMarkdown ((dictGet? locDict (some (CellVal.str r.question_name))).getD []))
          r.sect r.question_name
          ((dictGet? locDict (some (CellVal.str r.question_name))).getD []) td ?hall2]
        case hall2 =>
          intro t ht
          refine hall t ?_
          simp only [tuplesOf, List.map_cons, List.flatten_cons, List.mem_append]
          left
          simp only [widgetTuples, if_pos hloc]
          exact ht
      · rw [if_neg hloc]
        have hfr : defaultAdd td frLang r.sect r.path r.fr false = ([], td, none) := by
          refine defaultAdd_blocked td frLang r.sect r.path r.fr ?_
          intro hs
          refine hall (frLang, r.sect, r.path) ?_
          simp only [tuplesOf, List.map_cons, List.flatten_cons, List.mem_append]
          left
          simp [widgetTuples, hloc, hs]
        have hen : defaultAdd td enLang r.sect r.path r.en false = ([], td, none) := by
          refine defaultAdd_blocked td enLang r.sect r.path r.en ?_
          intro hs
          refine hall (enLang, r.sect, r.path) ?_
          simp only [tuplesOf, List.map_cons, List.flatten_cons, List.mem_append]
          left
          simp [widgetTuples, hloc, hs]
        rw [hfr]
        dsimp only
        rw [hen]
        rfl
    rw [show excelLoop locDict false td (r :: rs) =
        (let res := excelRow locDict false td r
        match res.2.2 with
        | some e => (res.1, res.2.1, some e)
        | none =>
          let res2 := excelLoop locDict false res.2.1 rs
          (res.1 ++ res2.1, res2.2.1, res2.2.2)) from by simp only [excelLoop]]
    rw [hrow]
    dsimp only
    rw [ih td ?hall3]
    case hall3 =>
      intro t ht
      refine hall t ?_
      simp only [tuplesOf, List.map_cons, List.flatten_cons, List.mem_append]
      right
      simpa [tuplesOf] using ht
    rfl

/-! ## Claim C1: what loading and saving do to the registry and the files -/

theorem loadedStore_modified (root l s : Str) (fd : List (Str × YamlVal)) :
    (loadedStore root l s fd).modified = false := rfl

theorem loadedStore_contains (root l s : Str) (fd : List (Str × YamlVal)) (p : Str) :
    containsKey (loadedStore root l s fd).data p = containsKey fd p := by
  simp only [loadedStore, TranslationLangNs.loadCurrentTranslations, TranslationLangNs.init]
  rw [List.map_map]
  exact containsKey_map_snd fd _ p

theorem loadFold_store (root : Str) :
    ∀ (fs : FS) (td : TranslationData) (l s : Str),
      (keysOf fs).Nodup →
      tdStore? (fs.foldl (fun td e => td.addTranslations e.1.1 e.1.2
          (loadedStore root e.1.1 e.1.2 e.2)) td) l s =
        match dictGet? fs (l, s) with
        | some fd => some (loadedStore root l s fd)
        | none => tdStore? td l s := by
  intro fs
  induction fs with
  | nil =>
    intro td l s _
    rfl
  | cons e fsRest ih =>
    intro td l s hnd
    obtain ⟨⟨el, es⟩, ed⟩ := e
    rw [keysOf_cons] at hnd
    have hnd0 := List.nodup_cons.mp hnd
    simp only [List.foldl_cons]
    rw [ih _ l s hnd0.2]
    by_cases he : (el, es) = (l, s)
    · have h1 : el = l := congrArg Prod.fst he
      have h2 : es = s := congrArg Prod.snd he
      subst h1
      subst h2
      have hni : (el, es) ∉ keysOf fsRest := hnd0.1
      rw [dictGet?_eq_none_of_not_mem hni]
      rw [show dictGet? (((el, es), ed) :: fsRest) (el, es) = some ed from by
        simp [dictGet?]]
      exact addTranslations_store_self td el es _
    · rw [show dictGet? (((el, es), ed) :: fsRest) (l, s) = dictGet? fsRest (l, s) from by
        simp [dictGet?, he]]
      cases hg : dictGet? fsRest (l, s) with
      | some fd => rfl
      | none =>
        have hne : ¬(el = l ∧ es = s) := by
          intro hc
          exact he (by rw [hc.1, hc.2])
        exact addTranslations_store_other td el es l s _ hne

theorem loadCurrentTranslations_store (root : Str) (fs : FS) (hnd : (keysOf fs).Nodup)
    (l s : Str) :
    tdStore? (FillLocalesTranslations.loadCurrentTranslations root fs) l s =
      match dictGet? fs (l, s) with
      | some fd => some (loadedStore root l s fd)
      | none => none := by
  rw [FillLocalesTranslations.loadCurrentTranslations, loadFold_store root fs _ l s hnd]
  cases dictGet? fs (l, s) <;> rfl

/-- Every store of a registry satisfies a property preserved by the code. -/
def AllCleanP (td : TranslationData) : Prop :=
  ∀ ls ∈ td.translations, ∀ ss ∈ ls.2, ss.2.modified = false

theorem addTranslations_allClean (td : TranslationData) (lang sect : Str)
    (tr : TranslationLangNs) (h : AllCleanP td) (htr : tr.modified = false) :
    AllCleanP (td.addTranslations lang sect tr) := by
  intro ls hls ss hss
  rcases mem_dictSet hls with heq | hmem
  · subst heq
    rcases mem_dictSet hss with heq2 | hss2
    · rw [heq2]
      exact htr
    · cases hg : dictGet? td.translations lang with
      | none =>
        rw [hg] at hss2
        simp at hss2
      | some secs =>
        rw [hg] at hss2
        exact h (lang, secs) (dictGet?_mem hg) ss hss2
  · exact h ls hmem ss hss

theorem loadCurrentTranslations_allClean (root : Str) (fs : FS) :
    AllCleanP (FillLocalesTranslations.loadCurrentTranslations root fs) := by
  rw [FillLocalesTranslations.loadCurrentTranslations]
  induction fs using List.reverseRecOn with
  | nil => intro ls hls; simp [TranslationData.init] at hls
  | append_singleton fsRest e ih =>
    rw [List.foldl_append, List.foldl_cons, List.foldl_nil]
    exact addTranslations_allClean _ _ _ _ ih (loadedStore_modified _ _ _ _)

theorem loadCurrentTranslations_tdWF (root : Str) (fs : FS) :
    tdWF (FillLocalesTranslations.loadCurrentTranslations root fs) := by
  rw [FillLocalesTranslations.loadCurrentTranslations]
  induction fs using List.reverseRecOn with
  | nil => exact ⟨List.nodup_nil, by intro ls hls; simp [TranslationData.init] at hls⟩
  | append_singleton fsRest e ih =>
    rw [List.foldl_append, List.foldl_cons, List.foldl_nil]
    exact addTranslations_tdWF _ _ _ _ ih

theorem tdAllClean_of_allCleanP (td : TranslationData) (h : AllCleanP td) :
    tdAllClean td = true := by
  rw [tdAllClean, List.all_eq_true]
  intro ls hls
  rw [List.all_eq_true]
  intro ss hss
  simp [h ls hls ss hss]

theorem saveOps_nil_of_allClean (td : TranslationData) (h : AllCleanP td) :
    td.saveOps = [] := by
  rw [TranslationData.saveOps]
  rw [List.flatten_eq_nil_iff]
  intro ops hops
  rw [List.mem_map] at hops
  obtain ⟨ls, hls, hmap⟩ := hops
  subst hmap
  rw [List.flatten_eq_nil_iff]
  intro ops2 hops2
  rw [List.mem_map] at hops2
  obtain ⟨ss, hss, hmap2⟩ := hops2
  subst hmap2
  simp [TranslationLangNs.save, h ls hls ss hss]

theorem saveFs_id_of_allClean (td : TranslationData) (fs : FS) (h : AllCleanP td) :
    td.saveFs fs = fs := by
  have hinner : ∀ (lang : Str) (secs : List (Str × TranslationLangNs)),
      (∀ ss ∈ secs, ss.2.modified = false) → ∀ fs0 : FS,
      secs.foldl
        (fun fs2 ss => if ss.2.modified then dictSet fs2 (lang, ss.1) ss.2.data else fs2)
        fs0 = fs0 := by
    intro lang secs
    induction secs with
    | nil => intro _ fs0; rfl
    | cons ss rest ih =>
      intro hall fs0
      rw [List.foldl_cons, if_neg (by rw [hall ss (List.mem_cons_self _ _)]; simp)]
      exact ih (fun x hx => hall x (List.mem_cons_of_mem _ hx)) fs0
  have houter : ∀ (ts : List (Str × List (Str × TranslationLangNs))),
      (∀ ls ∈ ts, ∀ ss ∈ ls.2, ss.2.modified = false) → ∀ fs0 : FS,
      ts.foldl
        (fun fs1 ls => ls.2.foldl
          (fun fs2 ss => if ss.2.modified then dictSet fs2 (ls.1, ss.1) ss.2.data else fs2)
          fs1) fs0 = fs0 := by
    intro ts
    induction ts with
    | nil => intro _ fs0; rfl
    | cons ls rest ih =>
      intro hall fs0
      rw [List.foldl_cons, hinner ls.1 ls.2 (hall ls (List.mem_cons_self _ _)) fs0]
      exact ih (fun x hx => hall x (List.mem_cons_of_mem _ hx)) fs0
  exact houter td.translations h fs

theorem saveFsInner_get (lang : Str) :
    ∀ (secs : List (Str × TranslationLangNs)), (keysOf secs).Nodup →
      ∀ (fs : FS) (l s : Str),
      dictGet? (secs.foldl
        (fun fs2 ss => if ss.2.modified then dictSet fs2 (lang, ss.1) ss.2.data else fs2) fs)
        (l, s) =
      (if lang = l then
        match dictGet? secs s with
        | some st => if st.modified then some st.data else dictGet? fs (l, s)
        | none => dictGet? fs (l, s)
      else dictGet? fs (l, s)) := by
  intro secs
  induction secs with
  | nil =>
    intro _ fs l s
    by_cases hll : lang = l <;> simp [hll, dictGet?]
  | cons ss rest ih =>
    intro hnd fs l s
    rw [keysOf_cons] at hnd
    have hnd0 := List.nodup_cons.mp hnd
    rw [List.foldl_cons]
    rw [ih hnd0.2]
    by_cases hll : lang = l
    · subst hll
      by_cases hss : ss.1 = s
      · subst hss
        rw [show dictGet? (ss :: rest) ss.1 = some ss.2 from by simp [dictGet?]]
        rw [dictGet?_eq_none_of_not_mem hnd0.1]
        simp only [if_pos rfl]
        cases hm : ss.2.modified
        · simp only [hm, Bool.false_eq_true, if_false]
        · simp only [hm, if_true]
          rw [dictGet?_dictSet_self]
      · rw [show dictGet? (ss :: rest) s = dictGet? rest s from by
          simp [dictGet?, hss]]
        have hstep : dictGet?
            (if ss.2.modified = true then dictSet fs (lang, ss.1) ss.2.data else fs)
            (lang, s) = dictGet? fs (lang, s) := by
          cases hm : ss.2.modified
          · simp only [hm, Bool.false_eq_true, if_false]
          · simp only [hm, if_true]
            exact dictGet?_dictSet_ne fs (lang, ss.1) (lang, s) _
              (fun hc => hss (congrArg Prod.snd hc))
        rw [hstep]
    · have hstep : dictGet?
          (if ss.2.modified = true then dictSet fs (lang, ss.1) ss.2.data else fs)
          (l, s) = dictGet? fs (l, s) := by
        cases hm : ss.2.modified
        · simp only [hm, Bool.false_eq_true, if_false]
        · simp only [hm, if_true]
          exact dictGet?_dictSet_ne fs (lang, ss.1) (l, s) _
            (fun hc => hll (congrArg Prod.fst hc))
      simp only [if_neg hll]
      rw [hstep]

theorem saveFsList_get (l s : Str) :
    ∀ (ts : List (Str × List (Str × TranslationLangNs))),
      (keysOf ts).Nodup → (∀ x ∈ ts, (keysOf x.2).Nodup) → ∀ (fs : FS),
      dictGet? (ts.foldl
        (fun fs1 ls => ls.2.foldl
          (fun fs2 ss => if ss.2.modified then dictSet fs2 (ls.1, ss.1) ss.2.data else fs2)
          fs1) fs) (l, s) =
      match (dictGet? ts l).bind (fun secs => dictGet? secs s) with
      | some st => if st.modified then some st.data else dictGet? fs (l, s)
      | none => dictGet? fs (l, s) := by
  intro ts
  induction ts with
  | nil =>
    intro _ _ fs
    simp [dictGet?]
  | cons ls rest ih =>
    obtain ⟨lang0, secs0⟩ := ls
    intro hnd hinner fs
    rw [keysOf_cons] at hnd
    have hnd0 := List.nodup_cons.mp hnd
    rw [List.foldl_cons]
    rw [ih hnd0.2 (fun x hx => hinner x (List.mem_cons_of_mem _ hx))]
    by_cases hl : lang0 = l
    · subst hl
      rw [show dictGet? ((lang0, secs0) :: rest) lang0 = some secs0 from by simp [dictGet?]]
      rw [dictGet?_eq_none_of_not_mem hnd0.1]
      simp only [Option.some_bind, Option.none_bind]
      rw [saveFsInner_get lang0 secs0 (hinner _ (List.mem_cons_self _ _)) fs lang0 s,
        if_pos rfl]
    · rw [show dictGet? ((lang0, secs0) :: rest) l = dictGet? rest l from by
        simp [dictGet?, hl]]
      have hbase : dictGet? (secs0.foldl
          (fun fs2 ss => if ss.2.modified then dictSet fs2 (lang0, ss.1) ss.2.data else fs2)
          fs) (l, s) = dictGet? fs (l, s) := by
        rw [saveFsInner_get lang0 secs0 (hinner _ (List.mem_cons_self _ _)) fs l s,
          if_neg hl]
      rw [hbase]

theorem saveFs_get (td : TranslationData) (hwf : tdWF td) (fs : FS) (l s : Str) :
    dictGet? (td.saveFs fs) (l, s) =
      match tdStore? td l s with
      | some st => if st.modified then some st.data else dictGet? fs (l, s)
      | none => dictGet? fs (l, s) := by
  rw [TranslationData.saveFs, tdStore?]
  exact saveFsList_get l s td.translations hwf.1 hwf.2 fs

theorem saveFs_keys_nodup (td : TranslationData) (fs : FS) (h : (keysOf fs).Nodup) :
    (keysOf (td.saveFs fs)).Nodup := by
  rw [TranslationData.saveFs]
  have hstep : ∀ (lang : Str) (secs : List (Str × TranslationLangNs)) (fs0 : FS),
      (keysOf fs0).Nodup →
      (keysOf (secs.foldl
        (fun fs2 ss => if ss.2.modified then dictSet fs2 (lang, ss.1) ss.2.data else fs2)
        fs0)).Nodup := by
    intro lang secs
    induction secs with
    | nil => intro fs0 h0; exact h0
    | cons ss rest ih =>
      intro fs0 h0
      rw [List.foldl_cons]
      refine ih _ ?_
      cases hm : ss.2.modified
      · simp only [hm, Bool.false_eq_true, if_false]
        exact h0
      · simp only [hm, if_true]
        exact dictSet_keys_nodup _ _ _ h0
  induction td.translations generalizing fs with
  | nil => exact h
  | cons ls rest ih =>
    rw [List.foldl_cons]
    exact ih _ (hstep ls.1 ls.2 fs h)

/-- C1 (amended): when the first run of the pipeline prints nothing (so no
exception was raised and swallowed anywhere) and succeeds with output files
`fs1`, a second run against the same spreadsheet with `overwrite = false` is
a no-op: every store's dirty bit is still false at the end of the second
run, the second run emits no save operation, and it returns `fs1`
byte-identically, again printing nothing. -/
theorem C1_idempotence_amended (fs : FS) (widgets : List WidgetRow)
    (labels : Option LabelsSheet) (root : Str) (ow : Bool) (fs1 : FS)
    (hnd : (keysOf fs).Nodup)
    (h1 : generate_libelles fs widgets labels root ow = ([], Except.ok fs1)) :
    generate_libelles fs1 widgets labels root false = ([], Except.ok fs1) ∧
    tdAllClean (runRegistry fs1 widgets labels root false) = true ∧
    (runRegistry fs1 widgets labels root false).saveOps = [] := by
  obtain ⟨L, td1, e1, hLoop⟩ :
      ∃ a b c, excelLoop (FillLocalesTranslations.getTranslationsFromLocaleSheet labels) ow
        (FillLocalesTranslations.loadCurrentTranslations root fs) widgets = (a, b, c) :=
    ⟨_, _, _, rfl⟩
  cases e1 with
  | some e2 =>
    exfalso
    have hg : generate_libelles fs widgets labels root ow =
        ((L ++ [excelExcMsg e2]) ++ [genErrMsg e2], Except.error e2) := by
      simp only [generate_libelles, FillLocalesTranslations.addTranslationsFromExcel, hLoop]
    rw [hg] at h1
    simp at h1
  | none =>
    have hg : generate_libelles fs widgets labels root ow =
        (L, Except.ok (td1.saveFs fs)) := by
      simp only [generate_libelles, FillLocalesTranslations.addTranslationsFromExcel, hLoop]
    rw [hg] at h1
    rw [Prod.mk.injEq] at h1
    obtain ⟨hL, hok⟩ := h1
    have hfs1 : td1.saveFs fs = fs1 := Except.ok.inj hok
    subst hL
    have hspec := excelLoop_clean_spec
      (FillLocalesTranslations.getTranslationsFromLocaleSheet labels) ow widgets
      (FillLocalesTranslations.loadCurrentTranslations root fs) td1 none hLoop
    have hwf1 : tdWF td1 := hspec.2.2.2.2 (loadCurrentTranslations_tdWF root fs)
    have hnd1 : (keysOf fs1).Nodup := by
      rw [← hfs1]
      exact saveFs_keys_nodup td1 fs hnd
    have hcov2 : ∀ t ∈ tuplesOf
        (FillLocalesTranslations.getTranslationsFromLocaleSheet labels) widgets,
        tdHasKey (FillLocalesTranslations.loadCurrentTranslations root fs1)
          t.1 t.2.1 t.2.2 := by
      intro t ht
      obtain ⟨st, hst, hck⟩ := hspec.2.2.1 t ht
      obtain ⟨fd, hfd, hckfd⟩ :
          ∃ fd, dictGet? fs1 (t.1, t.2.1) = some fd ∧ containsKey fd t.2.2 = true := by
        have hq : dictGet? fs1 (t.1, t.2.1) =
            if st.modified then some st.data else dictGet? fs (t.1, t.2.1) := by
          rw [← hfs1, saveFs_get td1 hwf1 fs t.1 t.2.1, hst]
        cases hm : st.modified
        · have hst0 := hspec.2.2.2.1 t.1 t.2.1 st hst hm
          rw [loadCurrentTranslations_store root fs hnd t.1 t.2.1] at hst0
          cases hgf : dictGet? fs (t.1, t.2.1) with
          | none =>
            rw [hgf] at hst0
            exact Option.noConfusion hst0
          | some fd =>
            rw [hgf] at hst0
            have hstl : loadedStore root t.1 t.2.1 fd = st := Option.some.inj hst0
            refine ⟨fd, ?_, ?_⟩
            · rw [hq, hm]
              simp only [Bool.false_eq_true, if_false]
              exact hgf
            · rw [← hstl, loadedStore_contains] at hck
              exact hck
        · refine ⟨st.data, ?_, hck⟩
          rw [hq, hm]
          rw [if_pos rfl]
      refine ⟨loadedStore root t.1 t.2.1 fd, ?_, ?_⟩
      · have hh := loadCurrentTranslations_store root fs1 hnd1 t.1 t.2.1
        rw [hfd] at hh
        exact hh
      · rw [loadedStore_contains]
        exact hckfd
    have hLoop2 := excelLoop_all_blocked
      (FillLocalesTranslations.getTranslationsFromLocaleSheet labels) widgets
      (FillLocalesTranslations.loadCurrentTranslations root fs1) hcov2
    have hreg : runRegistry fs1 widgets labels root false =
        FillLocalesTranslations.loadCurrentTranslations root fs1 := by
      simp only [runRegistry, FillLocalesTranslations.addTranslationsFromExcel, hLoop2]
    refine ⟨?_, ?_, ?_⟩
    · have hg2 : generate_libelles fs1 widgets labels root false =
          ([], Except.ok ((FillLocalesTranslations.loadCurrentTranslations root fs1).saveFs
            fs1)) := by
        simp only [generate_libelles, FillLocalesTranslations.addTranslationsFromExcel, hLoop2]
      rw [hg2, saveFs_id_of_allClean _ _ (loadCurrentTranslations_allClean root fs1)]
    · rw [hreg]
      exact tdAllClean_of_allCleanP _ (loadCurrentTranslations_allClean root fs1)
    · rw [hreg]
      exact saveOps_nil_of_allClean _ (loadCurrentTranslations_allClean root fs1)

theorem C1_idempotence_amended_witness :
    ((keysOf ([] : FS)).Nodup ∧
      generate_libelles [] [] none rootStr false = ([], Except.ok [])) ∧
    (generate_libelles [] [] none rootStr false = ([], Except.ok []) ∧
      tdAllClean (runRegistry [] [] none rootStr false) = true ∧
      (runRegistry [] [] none rootStr false).saveOps = []) :=
  ⟨⟨List.nodup_nil, rfl⟩,
    C1_idempotence_amended [] [] none rootStr false [] List.nodup_nil rfl⟩

def frBHdr : Str := "fr_b".toList

def qnY : Str := "Y".toList

def qnXb : Str := "X_b".toList

def wValText : Str := "text".toList

def cx1Labels : LabelsSheet :=
  { headerRow := [keyHdr, frAHdr, frBHdr],
    dataRows := [[some (CellVal.str qnX), some (CellVal.num 42), some (CellVal.str wValNew)]] }

def cx1W1 : WidgetRow :=
  { question_name := qnX, sect := sectS, path := pathP, fr := none, en := none }

def cx1W2 : WidgetRow :=
  { question_name := qnY, sect := sectS, path := qnXa, fr := some (CellVal.str wValText),
    en := none }

def cx1Fs1 : FS := [((frLang, sectS), [(qnXa, stringToYaml wValText)])]

def cx1Fs2 : FS :=
  [((frLang, sectS), [(qnXa, stringToYaml wValText), (qnXb, stringToYaml wValNew)])]

/-- C1 counterexample to the unamended claim: label row `X` has a numeric
`fr_a` cell and a string `fr_b` cell.  On the first run the add for `X_a`
raises `AttributeError`, the per-row handler swallows it and skips `fr_b`;
a later default-strategy widget stores path `X_a`, so the run succeeds with
one file.  On the second run (same spreadsheet, `overwrite = false`) the
`X_a` add is now gate-blocked instead of raising, the row continues to
`fr_b` and stores `X_b`: the dirty bit is set again, the file is rewritten,
and the output of the second run differs from the first. -/
theorem C1_counterexample :
    generate_libelles [] [cx1W1, cx1W2] (some cx1Labels) rootStr false =
      ([ctxLogMsg frLang sectS qnXa attrErrMsg, locSwallowMsg attrErrMsg],
        Except.ok cx1Fs1) ∧
    generate_libelles cx1Fs1 [cx1W1, cx1W2] (some cx1Labels) rootStr false =
      ([], Except.ok cx1Fs2) ∧
    cx1Fs2 ≠ cx1Fs1 ∧
    tdAllClean (runRegistry cx1Fs1 [cx1W1, cx1W2] (some cx1Labels) rootStr false) = false := by
  refine ⟨?_, ?_, by decide, ?_⟩ <;>
    simp [generate_libelles, runRegistry, FillLocalesTranslations.addTranslationsFromExcel,
      FillLocalesTranslations.getTranslationsFromLocaleSheet, getLocalesInner, get_headers,
      buildLocalesDict, zipDict, FillLocalesTranslations.loadCurrentTranslations,
      TranslationData.init, TranslationData.addTranslations, loadedStore,
      TranslationLangNs.loadCurrentTranslations, excelLoop, excelRow,
      FillLocalesTranslations.addTranslationsFromLocales, locLoop, rowKeepMarkdown,
      defaultAdd, TranslationData.addTranslation, TranslationData.saveFs, tdAllClean,
      TranslationLangNs.addTranslation, TranslationLangNs.init, containsKey, dictGet?,
      dictSet, mkFilePath, pySplit1, ctxLogMsg, locSwallowMsg, ctxPre, locSwallowPre,
      spaceStr, colonSpace, sepStr, ymlExt, attrErrMsg, transformValue, ValueReplacer.replace,
      ValueReplacer.replaceStartEnd, pyReplaceAll, pyReplAllAux, pyIn, isPre, pyCount,
      pyCountAux, stringToYaml, nomTok, nicknameRepl, keyHdr, namespaceHdr, mdHdr, frAHdr,
      frBHdr, qnX, qnY, qnXa, qnXb, wValNew, wValText, frLang, enLang, sectS, pathP, rootStr,
      underscoreChar, underscoreStr, ValueReplacer.newlineTok, ValueReplacer.brTag,
      ValueReplacer.boldTok, ValueReplacer.obliqueTok, ValueReplacer.greenTok,
      ValueReplacer.redTok, emptyStr, cx1W1, cx1W2, cx1Labels, cx1Fs1, cx1Fs2, keysOf]
